import Mathlib

/-!
# Verification of the Word-to-Moodle HTML cleaning pipeline

A shallow embedding of the HTML sanitization/normalization pipeline of
`app.py` (a Streamlit app cleaning pasted rich text into Moodle-friendly
HTML).  The pipeline operates on a DOM-like tree produced by a lenient
HTML parser; we embed that tree as the mutual inductive `Node`/`NodeList`
and translate every tree-rewriting pass from the source:

* `parse_style`, `font_size_to_pt` — the CSS style-declaration parser and
  the font-size conversion (`_parse_style`, `_font_size_to_pt`);
  numeric values are modelled as exact nonnegative fractions (`FsVal`),
  the idealized semantics of the decimal literals accepted by the
  source's regex (the source uses Python floats; all values the claims
  touch are exactly representable either way).
* `strip_disallowed_tags`, `strip_disallowed_attributes`,
  `keep_only_text_align_style`, `remove_all_styles`, `unwrap_spans`,
  `convert_b_i_to_strong_em`, `infer_headings_from_styles`,
  `tag_is_effectively_empty`, `remove_empty_tags`,
  `remove_office_specific_content` — the individual passes.
* `clean_html` — the full pipeline between fragment parsing and
  serialization, in the source's pass order, acting on the synthetic
  root's list of children.  (Parsing of raw HTML text and
  serialization/pretty-printing are the parser/serializer boundary and
  are outside the tree-level embedding; claims about `clean_html` are
  stated over all parsed trees.)

BeautifulSoup specifics the embedding reproduces: `get_text` does not
include comment nodes; the "effectively empty" check treats a comment
child like a string child (a `Comment` is a `NavigableString`);
`decompose` deletes a whole subtree while `unwrap` splices children in
place; tag and attribute names coming from the parser are lowercased;
attribute maps have unique keys (modelled as association lists, with the
passes acting uniformly on all matching keys).
-/

/-! ## Python string primitives (ASCII scope) -/

/-- Characters treated as whitespace by Python's `str.strip` and the regex
class `\s` (ASCII range). -/

def pyIsSpace (c : Char) : Bool :=
  c = ' ' || c = '\t' || c = '\n' || c = '\r' || c = '\x0b' || c = '\x0c'

/-- `str.strip` on a character list: drop whitespace from both ends. -/

def stripChars (cs : List Char) : List Char :=
  ((cs.dropWhile pyIsSpace).reverse.dropWhile pyIsSpace).reverse

/-- Python `str.strip`. -/

def pyStrip (s : String) : String := String.mk (stripChars s.data)

/-- Python `str.lower` (ASCII scope). -/

def pyLower (s : String) : String := String.mk (s.data.map Char.toLower)

/-- Python `str.split(sep)` for a one-character separator, on lists. -/

def splitOnChar (sep : Char) : List Char → List (List Char)
  | [] => [[]]
  | c :: rest =>
      let r := splitOnChar sep rest
      if c = sep then [] :: r
      else
        match r with
        | [] => [[c]]
        | g :: gs => (c :: g) :: gs

/-- Python `str.split(sep, 1)` for a one-character separator: split at the
first occurrence; `none` when the separator does not occur. -/

def splitFirstChar (sep : Char) : List Char → Option (List Char × List Char)
  | [] => none
  | c :: rest =>
      if c = sep then some ([], rest)
      else (splitFirstChar sep rest).map (fun p => (c :: p.1, p.2))

/-! ## `_parse_style`: CSS style attribute parser -/

/-- Python dict assignment `styles[prop] = val`: overwrite in place if the
key exists, else append. -/

def styleInsert (styles : List (String × String)) (k v : String) :
    List (String × String) :=
  if styles.any (fun p => p.1 == k) then
    styles.map (fun p => if p.1 == k then (k, v) else p)
  else styles ++ [(k, v)]

/-- One `;`-separated segment of a style string, added to the mapping:
skip if blank or without `:` or with empty property name. -/

def parseStylePart (styles : List (String × String)) (part0 : List Char) :
    List (String × String) :=
  let part := stripChars part0
  match splitFirstChar ':' part with
  | none => styles
  | some (p, rest) =>
    let prop := pyLower (String.mk (stripChars p))
    let v := String.mk (stripChars rest)
    if prop = "" then styles else styleInsert styles prop v

/-- `_parse_style`: parse a CSS style string into a property→value
mapping.  Splits on `;`, each part split on the first `:`, keys
lowercased and trimmed, values trimmed; parts without `:` or with an
empty key are silently skipped. -/

def parse_style (style_value : String) : List (String × String) :=
  if style_value = "" then []
  else (splitOnChar ';' style_value.data).foldl parseStylePart []

/-- `dict.get(k, "")` on a style mapping. -/

def styleGet (m : List (String × String)) (k : String) : String :=
  match m.find? (fun p => p.1 == k) with
  | some p => p.2
  | none => ""

/-! ## `_font_size_to_pt`: CSS font-size → points -/

/-- An exact nonnegative fraction `num / den`, the value semantics for
CSS font sizes (the source stores a Python float; the regex only accepts
nonnegative decimal literals). -/

structure FsVal where
  num : Nat
  den : Nat
deriving DecidableEq, Repr

/-- The rational value of an `FsVal`. -/

def FsVal.toRat (f : FsVal) : Rat := (f.num : Rat) / (f.den : Rat)

/-- `f ≥ t` for a natural threshold `t`, by cross-multiplication. -/

def FsVal.geNat (f : FsVal) (t : Nat) : Bool := f.num ≥ t * f.den

/-- Decimal digit run to a natural number. -/

def digitsToNat (ds : List Char) : Nat :=
  ds.foldl (fun a c => a * 10 + (c.toNat - 48)) 0

/-- The numeric part of the regex `([0-9]*\.?[0-9]+)` as a deterministic
parser: a maximal digit run, then an optional dot followed by a mandatory
nonempty digit run. -/

def parseFsNumber (cs : List Char) : Option (FsVal × List Char) :=
  let p1 := cs.span Char.isDigit
  match p1.2 with
  | c :: r2 =>
      if c = '.' then
        let p2 := r2.span Char.isDigit
        if p2.1 = [] then none
        else some (⟨digitsToNat (p1.1 ++ p2.1), 10 ^ p2.1.length⟩, p2.2)
      else if p1.1 = [] then none
      else some (⟨digitsToNat p1.1, 1⟩, p1.2)
  | [] => if p1.1 = [] then none else some (⟨digitsToNat p1.1, 1⟩, p1.2)

/-- The unit part of the regex `(px|pt)`; `true` means `px`. -/

def parseFsUnit : List Char → Option (Bool × List Char)
  | c1 :: c2 :: r =>
      if c1 = 'p' then
        if c2 = 'x' then some (true, r)
        else if c2 = 't' then some (false, r)
        else none
      else none
  | _ => none

/-- `num * 0.75`, exactly: the px→pt approximation. -/

def FsVal.pxToPt (f : FsVal) : FsVal := ⟨3 * f.num, 4 * f.den⟩

/-- `_font_size_to_pt`: convert a CSS font-size value to points when
possible; supports `px` (×0.75) and `pt`.  Mirrors
`re.match(r"^\s*([0-9]*\.?[0-9]+)\s*(px|pt)\s*$", value.strip().lower())`:
`None` for the empty string, any other unit, or a malformed numeric
literal. -/

def font_size_to_pt (value : String) : Option FsVal :=
  if value = "" then none
  else
    match parseFsNumber (((pyLower (pyStrip value)).data).dropWhile pyIsSpace) with
    | none => none
    | some (num, rest) =>
      match parseFsUnit (rest.dropWhile pyIsSpace) with
      | none => none
      | some (isPx, rest2) =>
        if rest2.dropWhile pyIsSpace = [] then
          some (if isPx then num.pxToPt else num)
        else none

/-! ## The document tree -/

mutual
/-- A DOM-like node: element (tag name, attributes, children), text, or
comment.  Tag names and attribute names arrive lowercased from the
lenient HTML parser. -/
inductive Node where
  | element (name : String) (attrs : List (String × String)) (children : NodeList)
  | text (s : String)
  | comment (s : String)
deriving DecidableEq

/-- A list of sibling nodes (the mutual shape keeps structural recursion
and induction straightforward). -/
inductive NodeList where
  | nil
  | cons (n : Node) (ns : NodeList)
deriving DecidableEq
end

/-- Concatenation of sibling lists (used when an element is unwrapped and
its children are spliced into the parent at its position). -/

def NodeList.append : NodeList → NodeList → NodeList
  | .nil, ms => ms
  | .cons n ns, ms => .cons n (ns.append ms)

/-- Number of element nodes in a tree list. -/

def countElems : NodeList → Nat
  | .nil => 0
  | .cons (.element _ _ cs) ns => 1 + countElems cs + countElems ns
  | .cons _ ns => countElems ns

/-- `get_text(strip=True)`: concatenation of the stripped text payloads
of all descendant text nodes, in document order.  Comments are not
included (BeautifulSoup's `get_text` skips `Comment` strings). -/

def textStrip : NodeList → String
  | .nil => ""
  | .cons (.element _ _ cs) ns => textStrip cs ++ textStrip ns
  | .cons (.text s) ns => pyStrip s ++ textStrip ns
  | .cons (.comment _) ns => textStrip ns

/-- Concatenation of the raw (unstripped) text payloads of all descendant
text nodes — the "concatenated text content" of a tree. -/

def rawText : NodeList → String
  | .nil => ""
  | .cons (.element _ _ cs) ns => rawText cs ++ rawText ns
  | .cons (.text s) ns => s ++ rawText ns
  | .cons (.comment _) ns => rawText ns

/-- Attribute lookup: `tag.get(k, "")`. -/

def attrGet (a : List (String × String)) (k : String) : String :=
  match a.find? (fun p => p.1 == k) with
  | some p => p.2
  | none => ""

/-- Attribute presence: `k in tag.attrs`. -/

def hasAttr (a : List (String × String)) (k : String) : Bool :=
  a.any (fun p => p.1 == k)

/-- Attribute deletion: `del tag.attrs[k]`. -/

def delAttr (a : List (String × String)) (k : String) : List (String × String) :=
  a.filter (fun p => ¬(p.1 == k))

/-- Attribute assignment to an existing key: `tag[k] = v`. -/

def setAttr (a : List (String × String)) (k v : String) : List (String × String) :=
  a.map (fun p => if p.1 == k then (k, v) else p)

/-! ## Tag vocabularies of the source -/

/-- `VOID_TAGS`: self-closing elements, never considered empty. -/

def VOID_TAGS : List String :=
  ["area", "base", "br", "col", "embed", "hr", "img", "input",
   "link", "meta", "param", "source", "track", "wbr"]

/-- `OFFICE_TAGS`: proprietary/legacy markup removed wholesale. -/

def OFFICE_TAGS : List String :=
  ["o:p", "v:shapetype", "v:shape", "v:imagedata", "xml", "style"]

/-- `GLOBAL_ALLOWED_ATTRS`: the global attribute allowlist (empty). -/

def GLOBAL_ALLOWED_ATTRS : List String := []

/-- `ALLOWED_ATTRS_BY_TAG`: per-tag attribute allowlists. -/

def ALLOWED_ATTRS_BY_TAG : List (String × List String) :=
  [("a", ["href", "title", "target", "rel"]),
   ("img", ["src", "alt", "title", "width", "height"]),
   ("th", ["colspan", "rowspan", "scope"]),
   ("td", ["colspan", "rowspan"]),
   ("table", ["summary"])]

/-- `ALLOWED_ATTRS_BY_TAG.get(tag.name, set())`. -/

def allowedAttrsFor (nm : String) : List String :=
  match ALLOWED_ATTRS_BY_TAG.find? (fun p => p.1 == nm) with
  | some p => p.2
  | none => []

/-- `ALLOWED_TAGS`: the tag allowlist (unknown tags are unwrapped, not
deleted with their content). -/

def ALLOWED_TAGS : List String :=
  ["p", "br", "h1", "h2", "h3", "h4", "h5", "h6", "ul", "ol", "li",
   "strong", "em", "b", "i", "u", "a", "blockquote", "pre", "code", "hr",
   "table", "thead", "tbody", "tr", "th", "td", "img", "span", "div"]

/-! ## Options -/

/-- `CleanOptions`: the per-invocation configuration record (all flags
default to on, as in the dataclass). -/

structure CleanOptions where
  remove_comments : Bool := true
  remove_classes : Bool := true
  remove_ids : Bool := true
  unwrap_spans : Bool := true
  remove_office_tags : Bool := true
  remove_empty_tags : Bool := true
  infer_headings_from_font_size : Bool := true
  keep_only_text_align_style : Bool := true
  keep_only_moodle_safe_attributes : Bool := true
  pretty_print_html : Bool := true
deriving DecidableEq

/-! ## The passes -/

/-- Comment removal (`comment.extract()` on every comment node). -/

def removeCommentsPass : NodeList → NodeList
  | .nil => .nil
  | .cons (.element nm a cs) ns => .cons (.element nm a (removeCommentsPass cs)) (removeCommentsPass ns)
  | .cons (.comment _) ns => removeCommentsPass ns
  | .cons n ns => .cons n (removeCommentsPass ns)

/-- First half of `_remove_office_specific_content`: `decompose` every
element whose tag name is in `OFFICE_TAGS` (the whole subtree is
deleted). -/

def removeOfficeElems : NodeList → NodeList
  | .nil => .nil
  | .cons (.element nm a cs) ns =>
      if nm ∈ OFFICE_TAGS then removeOfficeElems ns
      else .cons (.element nm a (removeOfficeElems cs)) (removeOfficeElems ns)
  | .cons n ns => .cons n (removeOfficeElems ns)

/-- Generic attribute-rewriting traversal: every element's attribute list
is rewritten by `f` (which may consult the tag name); structure, tag
names and non-element nodes are untouched. -/

def mapAttrs (f : String → List (String × String) → List (String × String)) :
    NodeList → NodeList
  | .nil => .nil
  | .cons (.element nm a cs) ns => .cons (.element nm (f nm a) (mapAttrs f cs)) (mapAttrs f ns)
  | .cons n ns => .cons n (mapAttrs f ns)

/-- Python `str.startswith`, on character lists. -/

def startsWithChars : List Char → List Char → Bool
  | _, [] => true
  | [], _ :: _ => false
  | c :: cs, d :: ds => c = d && startsWithChars cs ds

/-- Python `str.startswith`. -/

def pyStartsWith (s pre : String) : Bool := startsWithChars s.data pre.data

/-- The keep condition of the attribute half of
`_remove_office_specific_content`: the lowercased attribute name starts
with neither `mso` nor `o:`. -/

def officePairOk (pr : String × String) : Bool :=
  !(pyStartsWith (pyLower pr.1) "mso" || pyStartsWith (pyLower pr.1) "o:")

/-- Second half of `_remove_office_specific_content`: delete every
attribute whose lowercased name starts with `mso` or `o:`. -/

def officeAttrFilter (a : List (String × String)) : List (String × String) :=
  a.filter officePairOk

/-- `_remove_office_specific_content`: decompose Office-specific tags,
then strip vendor-prefixed attributes from every remaining element. -/

def remove_office_specific_content (ns : NodeList) : NodeList :=
  mapAttrs (fun _ => officeAttrFilter) (removeOfficeElems ns)

/-- `_strip_disallowed_tags`: unwrap (splice children in place of) every
element whose tag name is not in `ALLOWED_TAGS`. -/

def strip_disallowed_tags : NodeList → NodeList
  | .nil => .nil
  | .cons (.element nm a cs) ns =>
      if nm ∈ ALLOWED_TAGS then
        .cons (.element nm a (strip_disallowed_tags cs)) (strip_disallowed_tags ns)
      else (strip_disallowed_tags cs).append (strip_disallowed_tags ns)
  | .cons n ns => .cons n (strip_disallowed_tags ns)

/-- The per-attribute keep condition of `_strip_disallowed_attributes`:
`style` is exempt, everything else must be in the global ∪ per-tag
allowlist. -/

def moodlePairOk (nm : String) (pr : String × String) : Bool :=
  pr.1 == "style" || pr.1 ∈ GLOBAL_ALLOWED_ATTRS || pr.1 ∈ allowedAttrsFor nm

/-- `_strip_disallowed_attributes` on one element's attribute list. -/

def moodleAttrFilter (nm : String) (a : List (String × String)) :
    List (String × String) :=
  a.filter (moodlePairOk nm)

/-- `_strip_disallowed_attributes`: keep an attribute iff it is `style`
(exempt) or in the global ∪ per-tag allowlist. -/

def strip_disallowed_attributes : NodeList → NodeList :=
  mapAttrs moodleAttrFilter

/-- The accepted `text-align` values. -/

def ALIGN_VALUES : List String := ["left", "right", "center", "justify"]

/-- The alignment value `_keep_only_text_align_style` computes for one
element: `style_map.get("text-align", "").strip().lower()`. -/

def alignOf (a : List (String × String)) : String :=
  pyLower (pyStrip (styleGet (parse_style (attrGet a "style")) "text-align"))

/-- `_keep_only_text_align_style` on one attribute list: if a `style`
attribute is present, keep only `text-align: <value>` (for a valid
alignment value, lowercased), else drop the attribute. -/

def keepOnlyTextAlignAttr (a : List (String × String)) : List (String × String) :=
  if hasAttr a "style" then
    if alignOf a ∈ ALIGN_VALUES then setAttr a "style" ("text-align: " ++ alignOf a)
    else delAttr a "style"
  else a

/-- `_keep_only_text_align_style`: restrict every `style` attribute to a
single valid `text-align` declaration, or remove it. -/

def keep_only_text_align_style : NodeList → NodeList :=
  mapAttrs (fun _ => keepOnlyTextAlignAttr)

/-- `_remove_all_styles`: delete the `style` attribute everywhere. -/

def remove_all_styles : NodeList → NodeList :=
  mapAttrs (fun _ a => delAttr a "style")

/-- `class` removal (`del tag.attrs["class"]` for every tag with one). -/

def removeClassPass : NodeList → NodeList :=
  mapAttrs (fun _ a => delAttr a "class")

/-- `id` removal (`del tag.attrs["id"]` for every tag with one). -/

def removeIdPass : NodeList → NodeList :=
  mapAttrs (fun _ a => delAttr a "id")

/-- The tag renaming of `_convert_b_i_to_strong_em`: `b` → `strong`,
`i` → `em` (the two `find_all` loops touch disjoint tags, so one
combined renaming is equivalent). -/

def biRename (nm : String) : String :=
  if nm = "b" then "strong" else if nm = "i" then "em" else nm

/-- `_convert_b_i_to_strong_em`: rename every `b` to `strong` and every
`i` to `em` (attributes and children untouched). -/

def convert_b_i_to_strong_em : NodeList → NodeList
  | .nil => .nil
  | .cons (.element nm a cs) ns =>
      .cons (.element (biRename nm) a (convert_b_i_to_strong_em cs)) (convert_b_i_to_strong_em ns)
  | .cons n ns => .cons n (convert_b_i_to_strong_em ns)

/-- `_unwrap_spans`: unwrap every `span` (children spliced in place,
attributes discarded). -/

def unwrap_spans : NodeList → NodeList
  | .nil => .nil
  | .cons (.element nm a cs) ns =>
      if nm = "span" then (unwrap_spans cs).append (unwrap_spans ns)
      else .cons (.element nm a (unwrap_spans cs)) (unwrap_spans ns)
  | .cons n ns => .cons n (unwrap_spans ns)

/-! ## Heading inference -/

/-- `tag.find("span", recursive=False)`: the first *direct* child element
named `span` (at any position among the children), returning its
attributes. -/

def firstSpanChild : NodeList → Option (List (String × String))
  | .nil => none
  | .cons (.element nm a _) ns => if nm = "span" then some a else firstSpanChild ns
  | .cons _ ns => firstSpanChild ns

/-- `_candidate_font_size_pt`: the effective font size of a block — from
the element's own `style`, else from the `style` of its first direct
`span` child. -/

def candidate_font_size_pt (a : List (String × String)) (cs : NodeList) :
    Option FsVal :=
  match font_size_to_pt (styleGet (parse_style (attrGet a "style")) "font-size") with
  | some fs => some fs
  | none =>
    match firstSpanChild cs with
    | some sa => font_size_to_pt (styleGet (parse_style (attrGet sa "style")) "font-size")
    | none => none

/-- The threshold table of `_infer_headings_from_styles`, first match in
descending order: ≥22pt → `h2`, ≥18pt → `h3`, ≥16pt → `h4`, else the
tag is left unchanged. -/

def headingFor (fs : FsVal) (nm : String) : String :=
  if fs.geNat 22 then "h2"
  else if fs.geNat 18 then "h3"
  else if fs.geNat 16 then "h4"
  else nm

/-- The new tag name `_infer_headings_from_styles` gives one `p`/`div`
element (`inLi`: whether some ancestor is a list item). -/

def inferredName (inLi : Bool) (nm : String) (a : List (String × String))
    (cs : NodeList) : String :=
  if ¬inLi ∧ (nm = "p" ∨ nm = "div") ∧ textStrip cs ≠ ""
      ∧ (textStrip cs).length ≤ 120 then
    match candidate_font_size_pt a cs with
    | some fs => headingFor fs nm
    | none => nm
  else nm

/-- `_infer_headings_from_styles`: rename paragraph/div blocks that look
like headings (short non-empty text, large effective font size) to
`h2`/`h3`/`h4`; blocks inside a list item are skipped. -/

def infer_headings_from_styles (inLi : Bool) : NodeList → NodeList
  | .nil => .nil
  | .cons (.element nm a cs) ns =>
      .cons (.element (inferredName inLi nm a cs) a
              (infer_headings_from_styles (inLi || nm == "li") cs))
        (infer_headings_from_styles inLi ns)
  | .cons n ns => .cons n (infer_headings_from_styles inLi ns)

/-! ## Empty-node pruning -/

/-- The per-child check of `_tag_is_effectively_empty`: every child is a
whitespace-only string (a comment counts as a string: `Comment` is a
`NavigableString`) or a `br` element. -/

def childrenOnlyBrWs : NodeList → Bool
  | .nil => true
  | .cons (.text s) ns => pyStrip s = "" && childrenOnlyBrWs ns
  | .cons (.comment s) ns => pyStrip s = "" && childrenOnlyBrWs ns
  | .cons (.element nm _ _) ns => nm == "br" && childrenOnlyBrWs ns

/-- `_tag_is_effectively_empty`: a void tag is never empty; otherwise the
element is empty when its stripped text is empty and every child is
whitespace-only text or a `br`. -/

def tag_is_effectively_empty (nm : String) (cs : NodeList) : Bool :=
  if nm ∈ VOID_TAGS then false
  else if textStrip cs ≠ "" then false
  else childrenOnlyBrWs cs

/-- One full scan of the pruning loop (`find_all(True)` snapshot in
document order, parents visited before children): a non-void element
that is effectively empty is decomposed with its whole subtree;
otherwise its children are scanned in the same pass. -/

def pruneScan : NodeList → NodeList
  | .nil => .nil
  | .cons (.element nm a cs) ns =>
      if nm ∈ VOID_TAGS then .cons (.element nm a (pruneScan cs)) (pruneScan ns)
      else if tag_is_effectively_empty nm cs then pruneScan ns
      else .cons (.element nm a (pruneScan cs)) (pruneScan ns)
  | .cons n ns => .cons n (pruneScan ns)

/-- The `while removed:` fixpoint loop, with an explicit fuel argument:
scan; stop when a scan removes nothing (the scan returns the tree
unchanged), else scan again. -/

def pruneLoop : Nat → NodeList → NodeList
  | 0, ns => ns
  | fuel + 1, ns =>
      let m := pruneScan ns
      if m = ns then ns else pruneLoop fuel m

/-- `_remove_empty_tags`: repeat full scans until one removes nothing.
A scan that removes anything strictly decreases the element count, so
`countElems ns + 1` scans always suffice (proved below). -/

def remove_empty_tags (ns : NodeList) : NodeList :=
  pruneLoop (countElems ns + 1) ns

/-! ## The full pipeline -/

/-- `clean_html`: the tree-level pipeline between fragment parsing and
serialization, passes in source order, each gated by its option flag
(`_strip_disallowed_tags` and `_convert_b_i_to_strong_em` run
unconditionally). -/

def clean_html (options : CleanOptions) (ns : NodeList) : NodeList :=
  let s1 := if options.remove_comments then removeCommentsPass ns else ns
  let s2 := if options.remove_office_tags then remove_office_specific_content s1 else s1
  let s3 := strip_disallowed_tags s2
  let s4 := if options.infer_headings_from_font_size then infer_headings_from_styles false s3 else s3
  let s5 := if options.keep_only_text_align_style then keep_only_text_align_style s4
            else remove_all_styles s4
  let s6 := if options.keep_only_moodle_safe_attributes then strip_disallowed_attributes s5 else s5
  let s7 := if options.remove_classes then removeClassPass s6 else s6
  let s8 := if options.remove_ids then removeIdPass s7 else s7
  let s9 := convert_b_i_to_strong_em s8
  let s10 := if options.unwrap_spans then unwrap_spans s9 else s9
  if options.remove_empty_tags then remove_empty_tags s10 else s10

/-- Shorthand for the all-defaults options record. -/

def defaultOptions : CleanOptions := {}

/-! ## Induction principle and basic lemmas -/

/-- Structural induction over `NodeList` that recurses into an element's
children as well as the tail. -/

def NodeList.myrec {motive : NodeList → Prop}
    (hnil : motive .nil)
    (helem : ∀ nm a cs ns, motive cs → motive ns → motive (.cons (.element nm a cs) ns))
    (htext : ∀ s ns, motive ns → motive (.cons (.text s) ns))
    (hcomm : ∀ s ns, motive ns → motive (.cons (.comment s) ns)) :
    (ns : NodeList) → motive ns
  | .nil => hnil
  | .cons (.element nm a cs) ns =>
      helem nm a cs ns (NodeList.myrec hnil helem htext hcomm cs)
        (NodeList.myrec hnil helem htext hcomm ns)
  | .cons (.text s) ns => htext s ns (NodeList.myrec hnil helem htext hcomm ns)
  | .cons (.comment s) ns => hcomm s ns (NodeList.myrec hnil helem htext hcomm ns)

/-- "Every element of the tree satisfies `p` (on its name and
attributes)", as an executable predicate. -/

def elemsOk (p : String → List (String × String) → Bool) : NodeList → Bool
  | .nil => true
  | .cons (.element nm a cs) ns => p nm a && elemsOk p cs && elemsOk p ns
  | .cons _ ns => elemsOk p ns

/-- "The tree contains no comment nodes", as an executable predicate. -/

def noComments : NodeList → Bool
  | .nil => true
  | .cons (.element _ _ cs) ns => noComments cs && noComments ns
  | .cons (.comment _) _ => false
  | .cons _ ns => noComments ns

/-! ## Element invariants established by the passes -/

/-- Tag name in the allowlist. -/

def tagOkP (nm : String) (_a : List (String × String)) : Bool :=
  decide (nm ∈ ALLOWED_TAGS)

/-- Tag is neither `b` nor `i`. -/

def noBIP (nm : String) (_a : List (String × String)) : Bool :=
  !(nm == "b" || nm == "i")

/-- Tag is not `span`. -/

def noSpanP (nm : String) (_a : List (String × String)) : Bool :=
  !(nm == "span")

/-- No vendor-prefixed (Office) attribute names. -/

def officeAttrsOkP (_nm : String) (a : List (String × String)) : Bool :=
  a.all officePairOk

/-- Every attribute is `style` or in the global ∪ per-tag allowlist. -/

def attrsOkP (nm : String) (a : List (String × String)) : Bool :=
  a.all (moodlePairOk nm)

/-- No attribute with the given key. -/

def noKeyP (k : String) (a : List (String × String)) : Bool := !(hasAttr a k)

/-- The element is a fixed point of the text-align style filter. -/

def styleFixP (_nm : String) (a : List (String × String)) : Bool :=
  keepOnlyTextAlignAttr a == a

/-- The element's own style yields no usable `font-size`. -/

def noFsAttr (a : List (String × String)) : Bool :=
  font_size_to_pt (styleGet (parse_style (attrGet a "style")) "font-size") == none

/-- The canonical style values producible by the text-align filter. -/

def CANON_STYLES : List String :=
  ["text-align: left", "text-align: right", "text-align: center",
   "text-align: justify"]

/-- Every `style` attribute value is a canonical single text-align
declaration. -/

def canonStyleP (_nm : String) (a : List (String × String)) : Bool :=
  a.all (fun pr => !(pr.1 == "style") || pr.2 ∈ CANON_STYLES)

/-- The element invariant used for the heading-inference identity:
no element exposes a usable `font-size` in its own `style`. -/

def noFsP (_nm : String) (a : List (String × String)) : Bool := noFsAttr a

/-- No attribute with the `style` key. -/

def noStyleP (_nm : String) (a : List (String × String)) : Bool :=
  !(hasAttr a "style")

/-- No attribute with the `class` key. -/

def noClassP (_nm : String) (a : List (String × String)) : Bool :=
  !(hasAttr a "class")

/-- No attribute with the `id` key. -/

def noIdP (_nm : String) (a : List (String × String)) : Bool :=
  !(hasAttr a "id")

/-! ## Claim C8: the first-span lookup, and concrete example trees -/

/-- The claim's reading of `_candidate_font_size_pt` (C8): the style of
the first direct child is consulted only when that first child is a
`span`; a `span` appearing later among the children is not consulted. -/

def candidate_font_size_spec (a : List (String × String)) (cs : NodeList) :
    Option FsVal :=
  match font_size_to_pt (styleGet (parse_style (attrGet a "style")) "font-size") with
  | some fs => some fs
  | none =>
    match cs with
    | .cons (.element "span" sa _) _ =>
        font_size_to_pt (styleGet (parse_style (attrGet sa "style")) "font-size")
    | _ => none

/-- `<p><b>x</b><span style="font-size: 24px">y</span></p>`: the first
direct child is `b`, the styled `span` comes second. -/

def exC8 : NodeList :=
  .cons (.element "b" [] (.cons (.text "x") .nil))
    (.cons (.element "span" [("style", "font-size: 24px")] (.cons (.text "y") .nil)) .nil)

/-! ## Concrete example trees for the claims -/

/-- `<p style="font-size: 24px">Heading text</p>`. -/

def exC3a : NodeList :=
  .cons (.element "p" [("style", "font-size: 24px")]
    (.cons (.text "Heading text") .nil)) .nil

/-- `<p style="font-size: 30px">Heading text</p>`. -/

def exC3b : NodeList :=
  .cons (.element "p" [("style", "font-size: 30px")]
    (.cons (.text "Heading text") .nil)) .nil

/-- `<p style="font-size: 10px">Heading text</p>`. -/

def exC3c : NodeList :=
  .cons (.element "p" [("style", "font-size: 10px")]
    (.cons (.text "Heading text") .nil)) .nil

/-- `<div><p><br></p></div>`. -/

def exC5a : NodeList :=
  .cons (.element "div" []
    (.cons (.element "p" [] (.cons (.element "br" [] .nil) .nil)) .nil)) .nil

/-- `<p>Text<br></p>`. -/

def exC5b : NodeList :=
  .cons (.element "p" [] (.cons (.text "Text")
    (.cons (.element "br" [] .nil) .nil))) .nil

/-- `<p><!-- note --></p>`. -/

def exC10 : NodeList :=
  .cons (.element "p" [] (.cons (.comment " note ") .nil)) .nil

/-- A sample input for the attribute-closure witness:
`<p style="text-align: center" data-x="1">Hi</p>`. -/

def exC2 : NodeList :=
  .cons (.element "p" [("style", "text-align: center"), ("data-x", "1")]
    (.cons (.text "Hi") .nil)) .nil

/-! ## Characterization of the font-size parser (C7) -/

/-- Whitespace-only character list. -/

def wsOnly (l : List Char) : Prop := ∀ c ∈ l, pyIsSpace c = true

/-- Decimal-digit-only character list. -/

def digitsOnly (l : List Char) : Prop := ∀ c ∈ l, c.isDigit = true

/-- The characters of a decimal literal `d1[.d2]` accepted by the
regex group `([0-9]*\.?[0-9]+)`. -/

def decimalChars (d1 d2 : List Char) : List Char :=
  if d2 = [] then d1 else d1 ++ '.' :: d2

/-- The exact value of the decimal literal `d1[.d2]`. -/

def decimalVal (d1 d2 : List Char) : FsVal :=
  ⟨digitsToNat (d1 ++ d2), 10 ^ d2.length⟩

instance wsOnly.dec (l : List Char) : Decidable (wsOnly l) :=
  List.decidableBAll (fun c => pyIsSpace c = true) l

instance digitsOnly.dec (l : List Char) : Decidable (digitsOnly l) :=
  List.decidableBAll (fun c : Char => c.isDigit = true) l

theorem elemsOk_append {p : String → List (String × String) → Bool}
    {xs ys : NodeList} (hx : elemsOk p xs = true) (hy : elemsOk p ys = true) :
    elemsOk p (xs.append ys) = true := by
  induction xs using NodeList.myrec with
  | hnil => simpa [NodeList.append] using hy
  | helem nm a cs ns ih1 ih2 =>
      simp only [elemsOk, Bool.and_eq_true] at hx
      simp [NodeList.append, elemsOk, hx.1.1, hx.1.2, ih2 hx.2]
  | htext s ns ih => simp only [elemsOk] at hx; simp [NodeList.append, elemsOk, ih hx]
  | hcomm s ns ih => simp only [elemsOk] at hx; simp [NodeList.append, elemsOk, ih hx]

theorem noComments_append {xs ys : NodeList}
    (hx : noComments xs = true) (hy : noComments ys = true) :
    noComments (xs.append ys) = true := by
  induction xs using NodeList.myrec with
  | hnil => simpa [NodeList.append] using hy
  | helem nm a cs ns ih1 ih2 =>
      simp only [noComments, Bool.and_eq_true] at hx
      simp [NodeList.append, noComments, hx.1, ih2 hx.2]
  | htext s ns ih => simp only [noComments] at hx; simp [NodeList.append, noComments, ih hx]
  | hcomm s ns ih => exact absurd hx (by simp [noComments])

/-- `elemsOk` is monotone in the predicate. -/

theorem elemsOk_mono {p q : String → List (String × String) → Bool}
    (hpq : ∀ nm a, p nm a = true → q nm a = true) :
    ∀ ns, elemsOk p ns = true → elemsOk q ns = true := by
  intro ns
  induction ns using NodeList.myrec with
  | hnil => simp [elemsOk]
  | helem nm a cs ns ih1 ih2 =>
      simp only [elemsOk, Bool.and_eq_true]
      rintro ⟨⟨h1, h2⟩, h3⟩
      exact ⟨⟨hpq _ _ h1, ih1 h2⟩, ih2 h3⟩
  | htext s ns ih => simpa [elemsOk] using ih
  | hcomm s ns ih => simpa [elemsOk] using ih

/-! ## Preservation of tree-wide predicates by the passes -/

theorem elemsOk_removeCommentsPass {p} {ns : NodeList}
    (h : elemsOk p ns = true) : elemsOk p (removeCommentsPass ns) = true := by
  induction ns using NodeList.myrec with
  | hnil => simpa [removeCommentsPass] using h
  | helem nm a cs ns ih1 ih2 =>
      simp only [elemsOk, Bool.and_eq_true] at h
      simp [removeCommentsPass, elemsOk, h.1.1, ih1 h.1.2, ih2 h.2]
  | htext s ns ih => simp only [elemsOk] at h; simp [removeCommentsPass, elemsOk, ih h]
  | hcomm s ns ih => simp only [elemsOk] at h; simp [removeCommentsPass, ih h]

theorem elemsOk_removeOfficeElems {p} {ns : NodeList}
    (h : elemsOk p ns = true) : elemsOk p (removeOfficeElems ns) = true := by
  induction ns using NodeList.myrec with
  | hnil => simpa [removeOfficeElems] using h
  | helem nm a cs ns ih1 ih2 =>
      simp only [elemsOk, Bool.and_eq_true] at h
      by_cases hof : nm ∈ OFFICE_TAGS
      · simp [removeOfficeElems, hof, ih2 h.2]
      · simp [removeOfficeElems, hof, elemsOk, h.1.1, ih1 h.1.2, ih2 h.2]
  | htext s ns ih => simp only [elemsOk] at h; simp [removeOfficeElems, elemsOk, ih h]
  | hcomm s ns ih => simp only [elemsOk] at h; simp [removeOfficeElems, elemsOk, ih h]

theorem elemsOk_mapAttrs {p} {f} {ns : NodeList}
    (hf : ∀ nm a, p nm a = true → p nm (f nm a) = true)
    (h : elemsOk p ns = true) : elemsOk p (mapAttrs f ns) = true := by
  induction ns using NodeList.myrec with
  | hnil => simpa [mapAttrs] using h
  | helem nm a cs ns ih1 ih2 =>
      simp only [elemsOk, Bool.and_eq_true] at h
      simp [mapAttrs, elemsOk, hf nm a h.1.1, ih1 h.1.2, ih2 h.2]
  | htext s ns ih => simp only [elemsOk] at h; simp [mapAttrs, elemsOk, ih h]
  | hcomm s ns ih => simp only [elemsOk] at h; simp [mapAttrs, elemsOk, ih h]

theorem elemsOk_strip_disallowed_tags {p} {ns : NodeList}
    (h : elemsOk p ns = true) : elemsOk p (strip_disallowed_tags ns) = true := by
  induction ns using NodeList.myrec with
  | hnil => simpa [strip_disallowed_tags] using h
  | helem nm a cs ns ih1 ih2 =>
      simp only [elemsOk, Bool.and_eq_true] at h
      by_cases hal : nm ∈ ALLOWED_TAGS
      · simp [strip_disallowed_tags, hal, elemsOk, h.1.1, ih1 h.1.2, ih2 h.2]
      · simp only [strip_disallowed_tags, hal, if_false]
        exact elemsOk_append (ih1 h.1.2) (ih2 h.2)
  | htext s ns ih => simp only [elemsOk] at h; simp [strip_disallowed_tags, elemsOk, ih h]
  | hcomm s ns ih => simp only [elemsOk] at h; simp [strip_disallowed_tags, elemsOk, ih h]

theorem elemsOk_convert_b_i {p} {ns : NodeList}
    (hf : ∀ nm a, p nm a = true → p (biRename nm) a = true)
    (h : elemsOk p ns = true) : elemsOk p (convert_b_i_to_strong_em ns) = true := by
  induction ns using NodeList.myrec with
  | hnil => simpa [convert_b_i_to_strong_em] using h
  | helem nm a cs ns ih1 ih2 =>
      simp only [elemsOk, Bool.and_eq_true] at h
      simp [convert_b_i_to_strong_em, elemsOk, hf nm a h.1.1, ih1 h.1.2, ih2 h.2]
  | htext s ns ih => simp only [elemsOk] at h; simp [convert_b_i_to_strong_em, elemsOk, ih h]
  | hcomm s ns ih => simp only [elemsOk] at h; simp [convert_b_i_to_strong_em, elemsOk, ih h]

theorem elemsOk_infer_headings {p} {ns : NodeList}
    (hf : ∀ inLi nm a cs, p nm a = true → p (inferredName inLi nm a cs) a = true)
    {inLi : Bool} (h : elemsOk p ns = true) :
    elemsOk p (infer_headings_from_styles inLi ns) = true := by
  induction ns using NodeList.myrec generalizing inLi with
  | hnil => simpa [infer_headings_from_styles] using h
  | helem nm a cs ns ih1 ih2 =>
      simp only [elemsOk, Bool.and_eq_true] at h
      simp [infer_headings_from_styles, elemsOk, hf inLi nm a cs h.1.1, ih1 h.1.2, ih2 h.2]
  | htext s ns ih => simp only [elemsOk] at h; simp [infer_headings_from_styles, elemsOk, ih h]
  | hcomm s ns ih => simp only [elemsOk] at h; simp [infer_headings_from_styles, elemsOk, ih h]

theorem elemsOk_unwrap_spans {p} {ns : NodeList}
    (h : elemsOk p ns = true) : elemsOk p (unwrap_spans ns) = true := by
  induction ns using NodeList.myrec with
  | hnil => simpa [unwrap_spans] using h
  | helem nm a cs ns ih1 ih2 =>
      simp only [elemsOk, Bool.and_eq_true] at h
      by_cases hsp : nm = "span"
      · simp only [unwrap_spans, hsp, if_pos rfl]
        exact elemsOk_append (ih1 h.1.2) (ih2 h.2)
      · simp [unwrap_spans, hsp, elemsOk, h.1.1, ih1 h.1.2, ih2 h.2]
  | htext s ns ih => simp only [elemsOk] at h; simp [unwrap_spans, elemsOk, ih h]
  | hcomm s ns ih => simp only [elemsOk] at h; simp [unwrap_spans, elemsOk, ih h]

theorem elemsOk_pruneScan {p} {ns : NodeList}
    (h : elemsOk p ns = true) : elemsOk p (pruneScan ns) = true := by
  induction ns using NodeList.myrec with
  | hnil => simpa [pruneScan] using h
  | helem nm a cs ns ih1 ih2 =>
      simp only [elemsOk, Bool.and_eq_true] at h
      by_cases hv : nm ∈ VOID_TAGS
      · simp [pruneScan, hv, elemsOk, h.1.1, ih1 h.1.2, ih2 h.2]
      · by_cases he : tag_is_effectively_empty nm cs = true
        · simp [pruneScan, hv, he, ih2 h.2]
        · simp [pruneScan, hv, he, elemsOk, h.1.1, ih1 h.1.2, ih2 h.2]
  | htext s ns ih => simp only [elemsOk] at h; simp [pruneScan, elemsOk, ih h]
  | hcomm s ns ih => simp only [elemsOk] at h; simp [pruneScan, elemsOk, ih h]

theorem elemsOk_pruneLoop {p} (fuel : Nat) {ns : NodeList}
    (h : elemsOk p ns = true) : elemsOk p (pruneLoop fuel ns) = true := by
  induction fuel generalizing ns with
  | zero => simpa [pruneLoop] using h
  | succ k ih =>
      simp only [pruneLoop]
      split
      · exact h
      · exact ih (elemsOk_pruneScan h)

theorem elemsOk_remove_empty_tags {p} {ns : NodeList}
    (h : elemsOk p ns = true) : elemsOk p (remove_empty_tags ns) = true :=
  elemsOk_pruneLoop _ h

/-! ## Attribute-list lemmas -/

theorem allFilter {α : Type} {p g : α → Bool} {l : List α}
    (h : l.all p = true) : (l.filter g).all p = true := by
  induction l with
  | nil => simp
  | cons x xs ih =>
      simp only [List.all_cons, Bool.and_eq_true] at h
      by_cases hg : g x = true
      · simp [List.filter_cons, hg, h.1, ih h.2]
      · simp [List.filter_cons, hg, ih h.2]

theorem allFilterSelf {α : Type} {g : α → Bool} (l : List α) :
    (l.filter g).all g = true := by
  induction l with
  | nil => simp
  | cons x xs ih =>
      by_cases hg : g x = true
      · simp [List.filter_cons, hg, ih]
      · simp [List.filter_cons, hg, ih]

theorem filterAllEq {α : Type} {g : α → Bool} {l : List α}
    (h : l.all g = true) : l.filter g = l := by
  induction l with
  | nil => rfl
  | cons x xs ih =>
      simp only [List.all_cons, Bool.and_eq_true] at h
      simp [List.filter_cons, h.1, ih h.2]

theorem mapEqSelf {α : Type} {f : α → α} {l : List α}
    (h : l.map f = l) : ∀ x ∈ l, f x = x := by
  induction l with
  | nil => simp
  | cons y ys ih =>
      simp only [List.map_cons, List.cons.injEq] at h
      intro x hx
      rcases List.mem_cons.mp hx with hx | hx
      · exact hx ▸ h.1
      · exact ih h.2 x hx

theorem mapSelfOfAll {α : Type} {f : α → α} {l : List α}
    (h : ∀ x ∈ l, f x = x) : l.map f = l := by
  induction l with
  | nil => rfl
  | cons y ys ih =>
      simp only [List.map_cons, List.cons.injEq]
      exact ⟨h y (by simp), ih (fun x hx => h x (by simp [hx]))⟩

/-- `find?` is unchanged by a filter that keeps everything the search
predicate matches. -/

theorem findFilterKeep {α : Type} {q g : α → Bool} {l : List α}
    (hkeep : ∀ x, q x = true → g x = true) :
    (l.filter g).find? q = l.find? q := by
  induction l with
  | nil => rfl
  | cons x xs ih =>
      by_cases hq : q x = true
      · simp [List.filter_cons, hkeep x hq, List.find?, hq, ih]
      · by_cases hg : g x = true
        · simp [List.filter_cons, hg, List.find?, hq, ih]
        · simp [List.filter_cons, hg, List.find?, hq, ih]

/-- A filter that keeps `style` attributes does not change `attrGet _
"style"`. -/

theorem attrGetFilterStyle {g : String × String → Bool}
    {a : List (String × String)}
    (hkeep : ∀ pr, pr.1 == "style" → g pr = true) :
    attrGet (a.filter g) "style" = attrGet a "style" := by
  unfold attrGet
  rw [findFilterKeep hkeep]

theorem anyFilterKeep {α : Type} {q g : α → Bool} {l : List α}
    (hkeep : ∀ x, q x = true → g x = true) :
    (l.filter g).any q = l.any q := by
  induction l with
  | nil => rfl
  | cons x xs ih =>
      by_cases hq : q x = true
      · simp [List.filter_cons, hkeep x hq, hq, ih]
      · by_cases hg : g x = true
        · simp [List.filter_cons, hg, hq, ih]
        · simp [List.filter_cons, hg, hq, ih]

theorem hasAttrFilterStyle {g : String × String → Bool}
    {a : List (String × String)}
    (hkeep : ∀ pr, pr.1 == "style" → g pr = true) :
    hasAttr (a.filter g) "style" = hasAttr a "style" :=
  anyFilterKeep hkeep

theorem hasAttr_setAttr {a : List (String × String)} {k v : String}
    (h : hasAttr a k = true) : hasAttr (setAttr a k v) k = true := by
  induction a with
  | nil => simp [hasAttr] at h
  | cons x xs ih =>
      by_cases hx : (x.1 == k) = true
      · have hx' : x.1 = k := by simpa using hx
        simp [setAttr, hasAttr, hx']
      · have h2 : hasAttr xs k = true := by
          simp only [hasAttr, List.any_cons, Bool.or_eq_true] at h
          rcases h with h | h
          · exact absurd h hx
          · simpa [hasAttr] using h
        have hstep : setAttr (x :: xs) k v = x :: setAttr xs k v := by
          simp only [setAttr, List.map_cons, if_neg hx]
        rw [hstep]
        have h3 := ih h2
        unfold hasAttr at h3 ⊢
        simp only [List.any_cons, h3, Bool.or_true]

theorem attrGet_setAttr {a : List (String × String)} {k v : String}
    (h : hasAttr a k = true) : attrGet (setAttr a k v) k = v := by
  induction a with
  | nil => simp [hasAttr] at h
  | cons x xs ih =>
      by_cases hx : (x.1 == k) = true
      · have hx' : x.1 = k := by simpa using hx
        simp [setAttr, attrGet, List.find?, hx']
      · have h2 : hasAttr xs k = true := by
          simp only [hasAttr, List.any_cons, Bool.or_eq_true] at h
          rcases h with h | h
          · exact absurd h hx
          · simpa [hasAttr] using h
        have hstep : setAttr (x :: xs) k v = x :: setAttr xs k v := by
          simp only [setAttr, List.map_cons, if_neg hx]
        rw [hstep]
        have h3 := ih h2
        have hskip : List.find? (fun p => p.1 == k) (x :: setAttr xs k v)
            = List.find? (fun p => p.1 == k) (setAttr xs k v) := by
          have hfalse : (x.1 == k) = false := by
            cases hval : (x.1 == k) with
            | false => rfl
            | true => exact absurd hval hx
          simp [List.find?, hfalse]
        unfold attrGet at h3 ⊢
        rw [hskip]
        exact h3

/-! ## Attribute-level facts about the filters -/

theorem officeAttrFilter_estab (a : List (String × String)) :
    (officeAttrFilter a).all officePairOk = true :=
  allFilterSelf a

theorem officeAttrFilter_id {a : List (String × String)}
    (h : a.all officePairOk = true) : officeAttrFilter a = a :=
  filterAllEq h

theorem moodleAttrFilter_estab (nm : String) (a : List (String × String)) :
    (moodleAttrFilter nm a).all (moodlePairOk nm) = true :=
  allFilterSelf a

theorem moodleAttrFilter_id {nm : String} {a : List (String × String)}
    (h : a.all (moodlePairOk nm) = true) : moodleAttrFilter nm a = a :=
  filterAllEq h

theorem hasAttr_false_iff {a : List (String × String)} {k : String} :
    hasAttr a k = false ↔ ∀ pr ∈ a, ¬((pr.1 == k) = true) := by
  constructor
  · intro h pr hpr hk
    have hT : hasAttr a k = true := by
      simp only [hasAttr, List.any_eq_true]
      exact ⟨pr, hpr, hk⟩
    rw [h] at hT
    cases hT
  · intro h
    cases hval : hasAttr a k with
    | false => rfl
    | true =>
        exfalso
        simp only [hasAttr, List.any_eq_true] at hval
        obtain ⟨x, hx, hk⟩ := hval
        exact h x hx hk

theorem hasAttr_delAttr (a : List (String × String)) (k : String) :
    hasAttr (delAttr a k) k = false := by
  apply hasAttr_false_iff.mpr
  intro pr hpr hk
  have h2 := (List.mem_filter.mp hpr).2
  simp only [decide_eq_true_eq] at h2
  exact h2 hk

theorem delAttr_id {a : List (String × String)} {k : String}
    (h : hasAttr a k = false) : delAttr a k = a := by
  apply filterAllEq
  rw [List.all_eq_true]
  intro pr hpr
  have := hasAttr_false_iff.mp h pr hpr
  simpa using this

theorem hasAttr_filter_false {g : String × String → Bool}
    {a : List (String × String)} {k : String}
    (h : hasAttr a k = false) : hasAttr (a.filter g) k = false := by
  apply hasAttr_false_iff.mpr
  intro pr hpr
  exact hasAttr_false_iff.mp h pr (List.mem_filter.mp hpr).1

theorem hasAttr_setAttr_other {a : List (String × String)} {k k2 v : String}
    (hne : ¬(k2 = k)) (h : hasAttr a k2 = false) :
    hasAttr (setAttr a k v) k2 = false := by
  apply hasAttr_false_iff.mpr
  intro pr hpr hk
  obtain ⟨y, hy, hxy⟩ := List.mem_map.mp hpr
  by_cases hyk : (y.1 == k) = true
  · rw [if_pos hyk] at hxy
    subst hxy
    simp only [beq_iff_eq] at hk
    exact hne hk.symm
  · rw [if_neg hyk] at hxy
    subst hxy
    exact hasAttr_false_iff.mp h y hy hk

/-! ## The text-align style filter: fixed points and consequences -/

theorem attrGet_of_hasAttr_false {a : List (String × String)} {k : String}
    (h : hasAttr a k = false) : attrGet a k = "" := by
  unfold attrGet
  have hf : a.find? (fun p => p.1 == k) = none := by
    cases hf : a.find? (fun p => p.1 == k) with
    | none => rfl
    | some pr =>
        have hmem := List.mem_of_find?_eq_some hf
        have hpred := List.find?_some hf
        exact absurd hpred (hasAttr_false_iff.mp h pr hmem)
  rw [hf]

theorem setAttr_idem (a : List (String × String)) (k v : String) :
    setAttr (setAttr a k v) k v = setAttr a k v := by
  unfold setAttr
  rw [List.map_map]
  apply List.map_congr_left
  intro x _
  by_cases h : (x.1 == k) = true
  · simp [Function.comp, h]
  · have hf : (x.1 == k) = false := by cases hv : (x.1 == k) <;> simp_all
    simp [Function.comp, hf]

/-- Computation facts about the four canonical alignment values. -/

theorem canon_align {al : String} (h : al ∈ ALIGN_VALUES) :
    pyLower (pyStrip (styleGet (parse_style ("text-align: " ++ al)) "text-align")) = al ∧
    ("text-align: " ++ al) ∈ CANON_STYLES ∧
    font_size_to_pt (styleGet (parse_style ("text-align: " ++ al)) "font-size") = none := by
  simp only [ALIGN_VALUES, List.mem_cons, List.not_mem_nil, or_false] at h
  rcases h with rfl | rfl | rfl | rfl <;> exact ⟨by decide, by decide, by decide⟩

theorem keepOnly_of_hasAttr_false {a : List (String × String)}
    (h : hasAttr a "style" = false) : keepOnlyTextAlignAttr a = a := by
  unfold keepOnlyTextAlignAttr
  simp [h]

theorem keepOnly_pos_eq {a : List (String × String)}
    (hs : hasAttr a "style" = true) (hal : alignOf a ∈ ALIGN_VALUES) :
    keepOnlyTextAlignAttr a = setAttr a "style" ("text-align: " ++ alignOf a) := by
  unfold keepOnlyTextAlignAttr
  simp [hs, hal]

theorem keepOnly_neg_eq {a : List (String × String)}
    (hs : hasAttr a "style" = true) (hal : alignOf a ∉ ALIGN_VALUES) :
    keepOnlyTextAlignAttr a = delAttr a "style" := by
  unfold keepOnlyTextAlignAttr
  simp [hs, hal]

theorem keepOnlyTextAlignAttr_idem (a : List (String × String)) :
    keepOnlyTextAlignAttr (keepOnlyTextAlignAttr a) = keepOnlyTextAlignAttr a := by
  by_cases hs : hasAttr a "style" = true
  · by_cases hal : alignOf a ∈ ALIGN_VALUES
    · rw [keepOnly_pos_eq hs hal]
      have hs2 : hasAttr (setAttr a "style" ("text-align: " ++ alignOf a)) "style" = true :=
        hasAttr_setAttr hs
      have hal2 : alignOf (setAttr a "style" ("text-align: " ++ alignOf a)) = alignOf a := by
        calc alignOf (setAttr a "style" ("text-align: " ++ alignOf a))
            = pyLower (pyStrip (styleGet
                (parse_style (attrGet (setAttr a "style" ("text-align: " ++ alignOf a)) "style"))
                "text-align")) := rfl
          _ = pyLower (pyStrip (styleGet
                (parse_style ("text-align: " ++ alignOf a)) "text-align")) := by
                rw [attrGet_setAttr hs]
          _ = alignOf a := (canon_align hal).1
      rw [keepOnly_pos_eq hs2 (by rw [hal2]; exact hal), hal2, setAttr_idem]
    · rw [keepOnly_neg_eq hs hal]
      exact keepOnly_of_hasAttr_false (hasAttr_delAttr a "style")
  · have hs2 : hasAttr a "style" = false := by
      cases hv : hasAttr a "style" with
      | false => rfl
      | true => exact absurd hv hs
    have h1 := keepOnly_of_hasAttr_false hs2
    rw [h1, h1]

/-- Structure of a fixed point of the text-align filter: either no
`style` attribute at all, or the computed alignment is valid, the first
`style` value is the canonical declaration, and rewriting is a no-op. -/

theorem styleFix_cases {a : List (String × String)}
    (hfix : keepOnlyTextAlignAttr a = a) :
    hasAttr a "style" = false ∨
    (hasAttr a "style" = true ∧ alignOf a ∈ ALIGN_VALUES ∧
     attrGet a "style" = "text-align: " ++ alignOf a ∧
     setAttr a "style" ("text-align: " ++ alignOf a) = a) := by
  by_cases hs : hasAttr a "style" = true
  · right
    by_cases hal : alignOf a ∈ ALIGN_VALUES
    · have h1 : setAttr a "style" ("text-align: " ++ alignOf a) = a := by
        rw [← keepOnly_pos_eq hs hal]
        exact hfix
      refine ⟨hs, hal, ?_, h1⟩
      have h2 := attrGet_setAttr (v := "text-align: " ++ alignOf a) hs
      rw [h1] at h2
      exact h2
    · exfalso
      have h1 : delAttr a "style" = a := by
        rw [← keepOnly_neg_eq hs hal]
        exact hfix
      have h2 := hasAttr_delAttr a "style"
      rw [h1, hs] at h2
      cases h2
  · left
    cases hv : hasAttr a "style" with
    | false => rfl
    | true => exact absurd hv hs

/-- A fixed point of the text-align filter exposes no `font-size`. -/

theorem styleFix_noFs {a : List (String × String)}
    (hfix : keepOnlyTextAlignAttr a = a) : noFsAttr a = true := by
  rcases styleFix_cases hfix with h | ⟨_, hal, hget, _⟩
  · unfold noFsAttr
    rw [attrGet_of_hasAttr_false h]
    decide
  · unfold noFsAttr
    rw [hget, (canon_align hal).2.2]
    rfl

/-- A fixed point of the text-align filter only carries canonical
`style` values. -/

theorem styleFix_canon {nm : String} {a : List (String × String)}
    (hfix : keepOnlyTextAlignAttr a = a) : canonStyleP nm a = true := by
  unfold canonStyleP
  rw [List.all_eq_true]
  intro pr hpr
  rcases styleFix_cases hfix with h | ⟨_, hal, _, hset⟩
  · have := hasAttr_false_iff.mp h pr hpr
    simp [this]
  · by_cases hk : (pr.1 == "style") = true
    · have := mapEqSelf hset pr hpr
      rw [if_pos hk] at this
      have hv : pr.2 = "text-align: " ++ alignOf a := by rw [← this]
      simp only [hk, Bool.not_true, Bool.false_or]
      rw [hv]
      exact decide_eq_true ((canon_align hal).2.1)
    · simp [hk]

/-! ## Survival of attribute invariants across later passes -/

/-- A fixed point of the text-align filter stays one under any
attribute filter that keeps `style` pairs. -/

theorem styleFix_filter {g : String × String → Bool}
    {a : List (String × String)}
    (hkeep : ∀ pr : String × String, (pr.1 == "style") = true → g pr = true)
    (hfix : keepOnlyTextAlignAttr a = a) :
    keepOnlyTextAlignAttr (a.filter g) = a.filter g := by
  rcases styleFix_cases hfix with h | ⟨hs, hal, hget, hset⟩
  · exact keepOnly_of_hasAttr_false (hasAttr_filter_false h)
  · have hs2 : hasAttr (a.filter g) "style" = true := by
      rw [hasAttrFilterStyle hkeep]
      exact hs
    have hget2 : attrGet (a.filter g) "style" = "text-align: " ++ alignOf a := by
      rw [attrGetFilterStyle hkeep]
      exact hget
    have hal2 : alignOf (a.filter g) = alignOf a := by
      calc alignOf (a.filter g)
          = pyLower (pyStrip (styleGet
              (parse_style (attrGet (a.filter g) "style")) "text-align")) := rfl
        _ = pyLower (pyStrip (styleGet
              (parse_style ("text-align: " ++ alignOf a)) "text-align")) := by rw [hget2]
        _ = alignOf a := (canon_align hal).1
    rw [keepOnly_pos_eq hs2 (by rw [hal2]; exact hal), hal2]
    unfold setAttr at hset ⊢
    exact mapSelfOfAll (fun pr hpr => mapEqSelf hset pr (List.mem_filter.mp hpr).1)

theorem noFs_filter {g : String × String → Bool} {a : List (String × String)}
    (hkeep : ∀ pr : String × String, (pr.1 == "style") = true → g pr = true)
    (h : noFsAttr a = true) : noFsAttr (a.filter g) = true := by
  unfold noFsAttr at h ⊢
  rw [attrGetFilterStyle hkeep]
  exact h

theorem noFs_of_noStyle {a : List (String × String)}
    (h : hasAttr a "style" = false) : noFsAttr a = true := by
  unfold noFsAttr
  rw [attrGet_of_hasAttr_false h]
  decide

theorem allSetAttr {p : String × String → Bool} {a : List (String × String)}
    {k v : String} (hp : p (k, v) = true) (h : a.all p = true) :
    (setAttr a k v).all p = true := by
  rw [List.all_eq_true] at h ⊢
  intro pr hpr
  obtain ⟨y, hy, hxy⟩ := List.mem_map.mp hpr
  by_cases hyk : (y.1 == k) = true
  · rw [if_pos hyk] at hxy
    exact hxy ▸ hp
  · rw [if_neg hyk] at hxy
    exact hxy ▸ h y hy

theorem allKeepOnly {p : String × String → Bool} {a : List (String × String)}
    (hp : ∀ v, p ("style", v) = true) (h : a.all p = true) :
    (keepOnlyTextAlignAttr a).all p = true := by
  by_cases hs : hasAttr a "style" = true
  · by_cases hal : alignOf a ∈ ALIGN_VALUES
    · rw [keepOnly_pos_eq hs hal]
      exact allSetAttr (hp _) h
    · rw [keepOnly_neg_eq hs hal]
      exact allFilter h
  · have hs2 : hasAttr a "style" = false := by
      cases hv : hasAttr a "style" with
      | false => rfl
      | true => exact absurd hv hs
    rw [keepOnly_of_hasAttr_false hs2]
    exact h

/-! ## Renaming compatibility facts -/

theorem biRename_of_b : biRename "b" = "strong" := rfl

theorem biRename_of_i : biRename "i" = "em" := rfl

theorem biRename_other {nm : String} (hb : ¬nm = "b") (hi : ¬nm = "i") :
    biRename nm = nm := by
  unfold biRename
  rw [if_neg hb, if_neg hi]

theorem tagOkP_biRename (nm : String) (a : List (String × String))
    (h : tagOkP nm a = true) : tagOkP (biRename nm) a = true := by
  by_cases hb : nm = "b"
  · subst hb
    rfl
  · by_cases hi : nm = "i"
    · subst hi
      rfl
    · rw [biRename_other hb hi]
      exact h

theorem attrsOkP_biRename (nm : String) (a : List (String × String))
    (h : attrsOkP nm a = true) : attrsOkP (biRename nm) a = true := by
  by_cases hb : nm = "b"
  · subst hb
    unfold attrsOkP moodlePairOk at h ⊢
    rw [show biRename "b" = "strong" from rfl]
    rw [show allowedAttrsFor "strong" = [] from by decide]
    rw [show allowedAttrsFor "b" = [] from by decide] at h
    exact h
  · by_cases hi : nm = "i"
    · subst hi
      unfold attrsOkP moodlePairOk at h ⊢
      rw [show biRename "i" = "em" from rfl]
      rw [show allowedAttrsFor "em" = [] from by decide]
      rw [show allowedAttrsFor "i" = [] from by decide] at h
      exact h
    · rw [biRename_other hb hi]
      exact h

theorem inferredName_cases (inLi : Bool) (nm : String)
    (a : List (String × String)) (cs : NodeList) :
    inferredName inLi nm a cs = nm ∨ inferredName inLi nm a cs = "h2" ∨
    inferredName inLi nm a cs = "h3" ∨ inferredName inLi nm a cs = "h4" := by
  unfold inferredName headingFor
  split
  · split
    · split
      · exact Or.inr (Or.inl rfl)
      · split
        · exact Or.inr (Or.inr (Or.inl rfl))
        · split
          · exact Or.inr (Or.inr (Or.inr rfl))
          · exact Or.inl rfl
    · exact Or.inl rfl
  · exact Or.inl rfl

theorem tagOkP_inferredName (inLi : Bool) (nm : String)
    (a : List (String × String)) (cs : NodeList)
    (h : tagOkP nm a = true) : tagOkP (inferredName inLi nm a cs) a = true := by
  rcases inferredName_cases inLi nm a cs with hc | hc | hc | hc <;> rw [hc]
  · exact h
  · rfl
  · rfl
  · rfl

/-! ## Comment-freedom across the passes -/

theorem noComments_estab (ns : NodeList) :
    noComments (removeCommentsPass ns) = true := by
  induction ns using NodeList.myrec with
  | hnil => rfl
  | helem nm a cs ns ih1 ih2 => simp [removeCommentsPass, noComments, ih1, ih2]
  | htext s ns ih => simp [removeCommentsPass, noComments, ih]
  | hcomm s ns ih => simp [removeCommentsPass, ih]

theorem noComments_removeOfficeElems {ns : NodeList}
    (h : noComments ns = true) : noComments (removeOfficeElems ns) = true := by
  induction ns using NodeList.myrec with
  | hnil => rfl
  | helem nm a cs ns ih1 ih2 =>
      simp only [noComments, Bool.and_eq_true] at h
      by_cases hof : nm ∈ OFFICE_TAGS
      · simp [removeOfficeElems, hof, ih2 h.2]
      · simp [removeOfficeElems, hof, noComments, ih1 h.1, ih2 h.2]
  | htext s ns ih => simp only [noComments] at h; simp [removeOfficeElems, noComments, ih h]
  | hcomm s ns ih => exact absurd h (by simp [noComments])

theorem noComments_mapAttrs {f} {ns : NodeList}
    (h : noComments ns = true) : noComments (mapAttrs f ns) = true := by
  induction ns using NodeList.myrec with
  | hnil => rfl
  | helem nm a cs ns ih1 ih2 =>
      simp only [noComments, Bool.and_eq_true] at h
      simp [mapAttrs, noComments, ih1 h.1, ih2 h.2]
  | htext s ns ih => simp only [noComments] at h; simp [mapAttrs, noComments, ih h]
  | hcomm s ns ih => exact absurd h (by simp [noComments])

theorem noComments_strip_disallowed_tags {ns : NodeList}
    (h : noComments ns = true) : noComments (strip_disallowed_tags ns) = true := by
  induction ns using NodeList.myrec with
  | hnil => rfl
  | helem nm a cs ns ih1 ih2 =>
      simp only [noComments, Bool.and_eq_true] at h
      by_cases hal : nm ∈ ALLOWED_TAGS
      · simp [strip_disallowed_tags, hal, noComments, ih1 h.1, ih2 h.2]
      · simp only [strip_disallowed_tags, hal, if_false]
        exact noComments_append (ih1 h.1) (ih2 h.2)
  | htext s ns ih =>
      simp only [noComments] at h
      simp [strip_disallowed_tags, noComments, ih h]
  | hcomm s ns ih => exact absurd h (by simp [noComments])

theorem noComments_infer_headings {ns : NodeList} {inLi : Bool}
    (h : noComments ns = true) :
    noComments (infer_headings_from_styles inLi ns) = true := by
  induction ns using NodeList.myrec generalizing inLi with
  | hnil => rfl
  | helem nm a cs ns ih1 ih2 =>
      simp only [noComments, Bool.and_eq_true] at h
      simp [infer_headings_from_styles, noComments, ih1 h.1, ih2 h.2]
  | htext s ns ih =>
      simp only [noComments] at h
      simp [infer_headings_from_styles, noComments, ih h]
  | hcomm s ns ih => exact absurd h (by simp [noComments])

theorem noComments_convert_b_i {ns : NodeList}
    (h : noComments ns = true) :
    noComments (convert_b_i_to_strong_em ns) = true := by
  induction ns using NodeList.myrec with
  | hnil => rfl
  | helem nm a cs ns ih1 ih2 =>
      simp only [noComments, Bool.and_eq_true] at h
      simp [convert_b_i_to_strong_em, noComments, ih1 h.1, ih2 h.2]
  | htext s ns ih =>
      simp only [noComments] at h
      simp [convert_b_i_to_strong_em, noComments, ih h]
  | hcomm s ns ih => exact absurd h (by simp [noComments])

theorem noComments_unwrap_spans {ns : NodeList}
    (h : noComments ns = true) : noComments (unwrap_spans ns) = true := by
  induction ns using NodeList.myrec with
  | hnil => rfl
  | helem nm a cs ns ih1 ih2 =>
      simp only [noComments, Bool.and_eq_true] at h
      by_cases hsp : nm = "span"
      · simp only [unwrap_spans, hsp, if_pos rfl]
        exact noComments_append (ih1 h.1) (ih2 h.2)
      · simp [unwrap_spans, hsp, noComments, ih1 h.1, ih2 h.2]
  | htext s ns ih =>
      simp only [noComments] at h
      simp [unwrap_spans, noComments, ih h]
  | hcomm s ns ih => exact absurd h (by simp [noComments])

theorem noComments_pruneScan {ns : NodeList}
    (h : noComments ns = true) : noComments (pruneScan ns) = true := by
  induction ns using NodeList.myrec with
  | hnil => rfl
  | helem nm a cs ns ih1 ih2 =>
      simp only [noComments, Bool.and_eq_true] at h
      by_cases hv : nm ∈ VOID_TAGS
      · simp [pruneScan, hv, noComments, ih1 h.1, ih2 h.2]
      · by_cases he : tag_is_effectively_empty nm cs = true
        · simp [pruneScan, hv, he, ih2 h.2]
        · simp [pruneScan, hv, he, noComments, ih1 h.1, ih2 h.2]
  | htext s ns ih =>
      simp only [noComments] at h
      simp [pruneScan, noComments, ih h]
  | hcomm s ns ih => exact absurd h (by simp [noComments])

theorem noComments_pruneLoop (fuel : Nat) {ns : NodeList}
    (h : noComments ns = true) : noComments (pruneLoop fuel ns) = true := by
  induction fuel generalizing ns with
  | zero => simpa [pruneLoop] using h
  | succ k ih =>
      simp only [pruneLoop]
      split
      · exact h
      · exact ih (noComments_pruneScan h)

/-! ## Establishment of the element invariants -/

theorem strip_estab (ns : NodeList) :
    elemsOk tagOkP (strip_disallowed_tags ns) = true := by
  induction ns using NodeList.myrec with
  | hnil => rfl
  | helem nm a cs ns ih1 ih2 =>
      by_cases hal : nm ∈ ALLOWED_TAGS
      · simp [strip_disallowed_tags, hal, elemsOk, ih1, ih2, tagOkP]
      · simp only [strip_disallowed_tags, hal, if_false]
        exact elemsOk_append ih1 ih2
  | htext s ns ih => simp [strip_disallowed_tags, elemsOk, ih]
  | hcomm s ns ih => simp [strip_disallowed_tags, elemsOk, ih]

theorem convert_b_i_estab (ns : NodeList) :
    elemsOk noBIP (convert_b_i_to_strong_em ns) = true := by
  induction ns using NodeList.myrec with
  | hnil => rfl
  | helem nm a cs ns ih1 ih2 =>
      have hn : noBIP (biRename nm) a = true := by
        by_cases hb : nm = "b"
        · subst hb
          rfl
        · by_cases hi : nm = "i"
          · subst hi
            rfl
          · rw [biRename_other hb hi]
            unfold noBIP
            simp [hb, hi]
      simp [convert_b_i_to_strong_em, elemsOk, hn, ih1, ih2]
  | htext s ns ih => simp [convert_b_i_to_strong_em, elemsOk, ih]
  | hcomm s ns ih => simp [convert_b_i_to_strong_em, elemsOk, ih]

theorem unwrap_spans_estab (ns : NodeList) :
    elemsOk noSpanP (unwrap_spans ns) = true := by
  induction ns using NodeList.myrec with
  | hnil => rfl
  | helem nm a cs ns ih1 ih2 =>
      by_cases hsp : nm = "span"
      · simp only [unwrap_spans, hsp, if_pos rfl]
        exact elemsOk_append ih1 ih2
      · simp [unwrap_spans, hsp, elemsOk, ih1, ih2, noSpanP]
  | htext s ns ih => simp [unwrap_spans, elemsOk, ih]
  | hcomm s ns ih => simp [unwrap_spans, elemsOk, ih]

theorem mapAttrs_estab {p} {f} (hf : ∀ nm a, p nm (f nm a) = true) (ns : NodeList) :
    elemsOk p (mapAttrs f ns) = true := by
  induction ns using NodeList.myrec with
  | hnil => rfl
  | helem nm a cs ns ih1 ih2 => simp [mapAttrs, elemsOk, hf nm a, ih1, ih2]
  | htext s ns ih => simp [mapAttrs, elemsOk, ih]
  | hcomm s ns ih => simp [mapAttrs, elemsOk, ih]

/-! ## Identity of the passes on already-clean trees -/

theorem removeComments_id {ns : NodeList} (h : noComments ns = true) :
    removeCommentsPass ns = ns := by
  induction ns using NodeList.myrec with
  | hnil => rfl
  | helem nm a cs ns ih1 ih2 =>
      simp only [noComments, Bool.and_eq_true] at h
      simp [removeCommentsPass, ih1 h.1, ih2 h.2]
  | htext s ns ih =>
      simp only [noComments] at h
      simp [removeCommentsPass, ih h]
  | hcomm s ns ih => exact absurd h (by simp [noComments])

theorem mapAttrs_id {p} {f} (hid : ∀ nm a, p nm a = true → f nm a = a)
    {ns : NodeList} (h : elemsOk p ns = true) : mapAttrs f ns = ns := by
  induction ns using NodeList.myrec with
  | hnil => rfl
  | helem nm a cs ns ih1 ih2 =>
      simp only [elemsOk, Bool.and_eq_true] at h
      simp [mapAttrs, hid nm a h.1.1, ih1 h.1.2, ih2 h.2]
  | htext s ns ih =>
      simp only [elemsOk] at h
      simp [mapAttrs, ih h]
  | hcomm s ns ih =>
      simp only [elemsOk] at h
      simp [mapAttrs, ih h]

theorem allowed_not_office {nm : String} (hmem : nm ∈ ALLOWED_TAGS) :
    ¬(nm ∈ OFFICE_TAGS) := by
  have hall := List.all_eq_true.mp
    (show ALLOWED_TAGS.all (fun t => decide (¬(t ∈ OFFICE_TAGS))) = true from by decide)
    nm hmem
  simpa using hall

theorem removeOfficeElems_id {ns : NodeList}
    (h : elemsOk tagOkP ns = true) : removeOfficeElems ns = ns := by
  induction ns using NodeList.myrec with
  | hnil => rfl
  | helem nm a cs ns ih1 ih2 =>
      simp only [elemsOk, Bool.and_eq_true] at h
      have hmem : nm ∈ ALLOWED_TAGS := by simpa [tagOkP] using h.1.1
      simp [removeOfficeElems, allowed_not_office hmem, ih1 h.1.2, ih2 h.2]
  | htext s ns ih =>
      simp only [elemsOk] at h
      simp [removeOfficeElems, ih h]
  | hcomm s ns ih =>
      simp only [elemsOk] at h
      simp [removeOfficeElems, ih h]

theorem strip_id {ns : NodeList}
    (h : elemsOk tagOkP ns = true) : strip_disallowed_tags ns = ns := by
  induction ns using NodeList.myrec with
  | hnil => rfl
  | helem nm a cs ns ih1 ih2 =>
      simp only [elemsOk, Bool.and_eq_true] at h
      have hmem : nm ∈ ALLOWED_TAGS := by simpa [tagOkP] using h.1.1
      simp [strip_disallowed_tags, hmem, ih1 h.1.2, ih2 h.2]
  | htext s ns ih =>
      simp only [elemsOk] at h
      simp [strip_disallowed_tags, ih h]
  | hcomm s ns ih =>
      simp only [elemsOk] at h
      simp [strip_disallowed_tags, ih h]

theorem convert_b_i_id {ns : NodeList}
    (h : elemsOk noBIP ns = true) : convert_b_i_to_strong_em ns = ns := by
  induction ns using NodeList.myrec with
  | hnil => rfl
  | helem nm a cs ns ih1 ih2 =>
      simp only [elemsOk, Bool.and_eq_true] at h
      have hn : biRename nm = nm := by
        have := h.1.1
        unfold noBIP at this
        simp only [Bool.not_eq_true', Bool.or_eq_false_iff] at this
        exact biRename_other (by simpa using this.1) (by simpa using this.2)
      simp [convert_b_i_to_strong_em, hn, ih1 h.1.2, ih2 h.2]
  | htext s ns ih =>
      simp only [elemsOk] at h
      simp [convert_b_i_to_strong_em, ih h]
  | hcomm s ns ih =>
      simp only [elemsOk] at h
      simp [convert_b_i_to_strong_em, ih h]

theorem unwrap_spans_id {ns : NodeList}
    (h : elemsOk noSpanP ns = true) : unwrap_spans ns = ns := by
  induction ns using NodeList.myrec with
  | hnil => rfl
  | helem nm a cs ns ih1 ih2 =>
      simp only [elemsOk, Bool.and_eq_true] at h
      have hsp : ¬nm = "span" := by
        have := h.1.1
        unfold noSpanP at this
        simpa using this
      simp [unwrap_spans, hsp, ih1 h.1.2, ih2 h.2]
  | htext s ns ih =>
      simp only [elemsOk] at h
      simp [unwrap_spans, ih h]
  | hcomm s ns ih =>
      simp only [elemsOk] at h
      simp [unwrap_spans, ih h]

theorem firstSpanChild_ok {p} {cs : NodeList} (h : elemsOk p cs = true) :
    ∀ sa, firstSpanChild cs = some sa → p "span" sa = true := by
  revert h
  induction cs using NodeList.myrec with
  | hnil => intro h sa hfs; cases hfs
  | helem nm a cs2 ns ih1 ih2 =>
      intro h sa hfs
      simp only [elemsOk, Bool.and_eq_true] at h
      by_cases hsp : nm = "span"
      · simp only [firstSpanChild, if_pos hsp] at hfs
        cases hfs
        rw [← hsp]
        exact h.1.1
      · simp only [firstSpanChild, if_neg hsp] at hfs
        exact ih2 h.2 sa hfs
  | htext s ns ih =>
      intro h sa hfs
      simp only [elemsOk] at h
      simp only [firstSpanChild] at hfs
      exact ih h sa hfs
  | hcomm s ns ih =>
      intro h sa hfs
      simp only [elemsOk] at h
      simp only [firstSpanChild] at hfs
      exact ih h sa hfs

theorem infer_id {ns : NodeList} (h : elemsOk noFsP ns = true)
    (inLi : Bool) : infer_headings_from_styles inLi ns = ns := by
  induction ns using NodeList.myrec generalizing inLi with
  | hnil => rfl
  | helem nm a cs ns ih1 ih2 =>
      simp only [elemsOk, Bool.and_eq_true] at h
      have hown : font_size_to_pt (styleGet (parse_style (attrGet a "style")) "font-size")
          = none := by
        have := h.1.1
        unfold noFsP noFsAttr at this
        simpa using this
      have hcand : candidate_font_size_pt a cs = none := by
        unfold candidate_font_size_pt
        rw [hown]
        cases hfs : firstSpanChild cs with
        | none => rfl
        | some sa =>
            have hsa := firstSpanChild_ok h.1.2 sa hfs
            unfold noFsP noFsAttr at hsa
            simpa using hsa
      have hname : inferredName inLi nm a cs = nm := by
        unfold inferredName
        split
        · rw [hcand]
        · rfl
      simp [infer_headings_from_styles, hname, ih1 h.1.2, ih2 h.2]
  | htext s ns ih =>
      simp only [elemsOk] at h
      simp [infer_headings_from_styles, ih h]
  | hcomm s ns ih =>
      simp only [elemsOk] at h
      simp [infer_headings_from_styles, ih h]

theorem pruneLoop_id (fuel : Nat) {ns : NodeList}
    (h : pruneScan ns = ns) : pruneLoop fuel ns = ns := by
  cases fuel with
  | zero => rfl
  | succ k => simp [pruneLoop, h]

/-! ## Termination of the pruning fixpoint loop -/

theorem countElems_append (xs ys : NodeList) :
    countElems (xs.append ys) = countElems xs + countElems ys := by
  induction xs using NodeList.myrec with
  | hnil => simp [NodeList.append, countElems]
  | helem nm a cs ns ih1 ih2 => simp [NodeList.append, countElems, ih2]; omega
  | htext s ns ih => simp [NodeList.append, countElems, ih]
  | hcomm s ns ih => simp [NodeList.append, countElems, ih]

theorem count_pruneScan_le (ns : NodeList) :
    countElems (pruneScan ns) ≤ countElems ns := by
  induction ns using NodeList.myrec with
  | hnil => simp [pruneScan]
  | helem nm a cs ns ih1 ih2 =>
      by_cases hv : nm ∈ VOID_TAGS
      · simp only [pruneScan, if_pos hv, countElems]
        omega
      · by_cases he : tag_is_effectively_empty nm cs = true
        · simp only [pruneScan, if_neg hv, if_pos he, countElems]
          omega
        · simp only [pruneScan, if_neg hv, if_neg he, countElems]
          omega
  | htext s ns ih => simpa [pruneScan, countElems] using ih
  | hcomm s ns ih => simpa [pruneScan, countElems] using ih

theorem pruneScan_eq_of_count {ns : NodeList}
    (h : countElems (pruneScan ns) = countElems ns) : pruneScan ns = ns := by
  induction ns using NodeList.myrec with
  | hnil => rfl
  | helem nm a cs ns ih1 ih2 =>
      have hle1 := count_pruneScan_le cs
      have hle2 := count_pruneScan_le ns
      by_cases hv : nm ∈ VOID_TAGS
      · simp only [pruneScan, if_pos hv, countElems] at h ⊢
        rw [ih1 (by omega), ih2 (by omega)]
      · by_cases he : tag_is_effectively_empty nm cs = true
        · exfalso
          simp only [pruneScan, if_neg hv, if_pos he, countElems] at h
          omega
        · simp only [pruneScan, if_neg hv, if_neg he, countElems] at h ⊢
          rw [ih1 (by omega), ih2 (by omega)]
  | htext s ns ih =>
      simp only [pruneScan, countElems] at h ⊢
      rw [ih h]
  | hcomm s ns ih =>
      simp only [pruneScan, countElems] at h ⊢
      rw [ih h]

/-- A scan that changes the tree strictly decreases the element count. -/

theorem pruneScan_progress (ns : NodeList) :
    pruneScan ns = ns ∨ countElems (pruneScan ns) < countElems ns := by
  by_cases h : countElems (pruneScan ns) = countElems ns
  · exact Or.inl (pruneScan_eq_of_count h)
  · exact Or.inr (Nat.lt_of_le_of_ne (count_pruneScan_le ns) h)

/-- Enough fuel always reaches a fixed point of the scan. -/

theorem pruneLoop_fix (fuel : Nat) (ns : NodeList)
    (hfuel : countElems ns < fuel) :
    pruneScan (pruneLoop fuel ns) = pruneLoop fuel ns := by
  induction fuel generalizing ns with
  | zero => omega
  | succ k ih =>
      simp only [pruneLoop]
      by_cases heq : pruneScan ns = ns
      · rw [if_pos heq]
        exact heq
      · rw [if_neg heq]
        rcases pruneScan_progress ns with h | h
        · exact absurd h heq
        · exact ih (pruneScan ns) (by omega)

/-- `_remove_empty_tags` reaches a fixed point of the full scan: the
final scan removes nothing. -/

theorem remove_empty_tags_fix (ns : NodeList) :
    pruneScan (remove_empty_tags ns) = remove_empty_tags ns :=
  pruneLoop_fix _ ns (Nat.lt_succ_self _)

theorem remove_empty_tags_id {ns : NodeList} (h : pruneScan ns = ns) :
    remove_empty_tags ns = ns :=
  pruneLoop_id _ h

/-! ## Walking invariants through the conditional pipeline -/

theorem condStep {b : Bool} {f : NodeList → NodeList} {P : NodeList → Prop}
    (hf : ∀ t, P t → P (f t)) {t : NodeList} (h : P t) :
    P (if b = true then f t else t) := by
  cases b with
  | false => simpa using h
  | true => simpa using hf t h

theorem condStep2 {b : Bool} {f g : NodeList → NodeList} {P : NodeList → Prop}
    (hf : ∀ t, P t → P (f t)) (hg : ∀ t, P t → P (g t)) {t : NodeList}
    (h : P t) : P (if b = true then f t else g t) := by
  cases b with
  | false => simpa using hg t h
  | true => simpa using hf t h

/-- After the full pipeline, every element's tag is in the allowlist. -/

theorem clean_tagOk (opts : CleanOptions) (ns : NodeList) :
    elemsOk tagOkP (clean_html opts ns) = true := by
  simp only [clean_html]
  apply condStep (P := fun t => elemsOk tagOkP t = true)
    (f := remove_empty_tags) (fun t ht => elemsOk_remove_empty_tags ht)
  apply condStep (P := fun t => elemsOk tagOkP t = true)
    (f := unwrap_spans) (fun t ht => elemsOk_unwrap_spans ht)
  apply elemsOk_convert_b_i tagOkP_biRename
  apply condStep (P := fun t => elemsOk tagOkP t = true)
    (f := removeIdPass) (fun t ht => elemsOk_mapAttrs (fun nm a h => h) ht)
  apply condStep (P := fun t => elemsOk tagOkP t = true)
    (f := removeClassPass) (fun t ht => elemsOk_mapAttrs (fun nm a h => h) ht)
  apply condStep (P := fun t => elemsOk tagOkP t = true)
    (f := strip_disallowed_attributes)
    (fun t ht => elemsOk_mapAttrs (fun nm a h => h) ht)
  apply condStep2 (P := fun t => elemsOk tagOkP t = true)
    (f := keep_only_text_align_style) (g := remove_all_styles)
    (fun t ht => elemsOk_mapAttrs (fun nm a h => h) ht)
    (fun t ht => elemsOk_mapAttrs (fun nm a h => h) ht)
  apply condStep (P := fun t => elemsOk tagOkP t = true)
    (f := infer_headings_from_styles false)
    (fun t ht => elemsOk_infer_headings tagOkP_inferredName ht)
  exact strip_estab _

/-- After the full pipeline no `b` and no `i` element remains. -/

theorem clean_noBI (opts : CleanOptions) (ns : NodeList) :
    elemsOk noBIP (clean_html opts ns) = true := by
  simp only [clean_html]
  apply condStep (P := fun t => elemsOk noBIP t = true)
    (f := remove_empty_tags) (fun t ht => elemsOk_remove_empty_tags ht)
  apply condStep (P := fun t => elemsOk noBIP t = true)
    (f := unwrap_spans) (fun t ht => elemsOk_unwrap_spans ht)
  exact convert_b_i_estab _

/-- With span unwrapping on, no `span` element survives. -/

theorem clean_noSpan (opts : CleanOptions) (ns : NodeList)
    (h : opts.unwrap_spans = true) :
    elemsOk noSpanP (clean_html opts ns) = true := by
  simp only [clean_html, h]
  apply condStep (P := fun t => elemsOk noSpanP t = true)
    (f := remove_empty_tags) (fun t ht => elemsOk_remove_empty_tags ht)
  exact unwrap_spans_estab _

/-- With comment removal on, no comment survives the pipeline. -/

theorem clean_noComments (opts : CleanOptions) (ns : NodeList)
    (h : opts.remove_comments = true) :
    noComments (clean_html opts ns) = true := by
  simp only [clean_html, h, if_pos]
  apply condStep (P := fun t => noComments t = true)
    (f := remove_empty_tags) (fun t ht => noComments_pruneLoop _ ht)
  apply condStep (P := fun t => noComments t = true)
    (f := unwrap_spans) (fun t ht => noComments_unwrap_spans ht)
  apply noComments_convert_b_i
  apply condStep (P := fun t => noComments t = true)
    (f := removeIdPass) (fun t ht => noComments_mapAttrs ht)
  apply condStep (P := fun t => noComments t = true)
    (f := removeClassPass) (fun t ht => noComments_mapAttrs ht)
  apply condStep (P := fun t => noComments t = true)
    (f := strip_disallowed_attributes) (fun t ht => noComments_mapAttrs ht)
  apply condStep2 (P := fun t => noComments t = true)
    (f := keep_only_text_align_style) (g := remove_all_styles)
    (fun t ht => noComments_mapAttrs ht)
    (fun t ht => noComments_mapAttrs ht)
  apply condStep (P := fun t => noComments t = true)
    (f := infer_headings_from_styles false)
    (fun t ht => noComments_infer_headings ht)
  apply noComments_strip_disallowed_tags
  apply condStep (P := fun t => noComments t = true)
    (f := remove_office_specific_content)
    (fun t ht => noComments_mapAttrs (noComments_removeOfficeElems ht))
  exact noComments_estab ns

/-- With Office stripping on, no vendor-prefixed attribute survives. -/

theorem clean_officeAttrs (opts : CleanOptions) (ns : NodeList)
    (h : opts.remove_office_tags = true) :
    elemsOk officeAttrsOkP (clean_html opts ns) = true := by
  simp only [clean_html, h, if_pos]
  apply condStep (P := fun t => elemsOk officeAttrsOkP t = true)
    (f := remove_empty_tags) (fun t ht => elemsOk_remove_empty_tags ht)
  apply condStep (P := fun t => elemsOk officeAttrsOkP t = true)
    (f := unwrap_spans) (fun t ht => elemsOk_unwrap_spans ht)
  apply elemsOk_convert_b_i (p := officeAttrsOkP) (fun nm a h => h)
  apply condStep (P := fun t => elemsOk officeAttrsOkP t = true)
    (f := removeIdPass) (fun t ht => elemsOk_mapAttrs (fun nm a h => allFilter h) ht)
  apply condStep (P := fun t => elemsOk officeAttrsOkP t = true)
    (f := removeClassPass) (fun t ht => elemsOk_mapAttrs (fun nm a h => allFilter h) ht)
  apply condStep (P := fun t => elemsOk officeAttrsOkP t = true)
    (f := strip_disallowed_attributes)
    (fun t ht => elemsOk_mapAttrs (fun nm a h => allFilter h) ht)
  apply condStep2 (P := fun t => elemsOk officeAttrsOkP t = true)
    (f := keep_only_text_align_style) (g := remove_all_styles)
    (fun t ht => elemsOk_mapAttrs
      (fun nm a h => allKeepOnly (fun v => rfl) h) ht)
    (fun t ht => elemsOk_mapAttrs (fun nm a h => allFilter h) ht)
  apply condStep (P := fun t => elemsOk officeAttrsOkP t = true)
    (f := infer_headings_from_styles false)
    (fun t ht => elemsOk_infer_headings (p := officeAttrsOkP)
      (fun inLi nm a cs h => h) ht)
  apply elemsOk_strip_disallowed_tags
  exact mapAttrs_estab (fun nm a => allFilterSelf a) _

theorem condEstab2 {b : Bool} {f g : NodeList → NodeList} {P : NodeList → Prop}
    (hf : ∀ t, P (f t)) (hg : ∀ t, P (g t)) (t : NodeList) :
    P (if b = true then f t else g t) := by
  cases b with
  | false => simpa using hg t
  | true => simpa using hf t

/-- With alignment-preserving style mode on, every element of the output
is a fixed point of the text-align filter. -/

theorem clean_styleFix (opts : CleanOptions) (ns : NodeList)
    (h : opts.keep_only_text_align_style = true) :
    elemsOk styleFixP (clean_html opts ns) = true := by
  simp only [clean_html, h, if_pos]
  apply condStep (P := fun t => elemsOk styleFixP t = true)
    (f := remove_empty_tags) (fun t ht => elemsOk_remove_empty_tags ht)
  apply condStep (P := fun t => elemsOk styleFixP t = true)
    (f := unwrap_spans) (fun t ht => elemsOk_unwrap_spans ht)
  apply elemsOk_convert_b_i (p := styleFixP) (fun nm a h => h)
  apply condStep (P := fun t => elemsOk styleFixP t = true)
    (f := removeIdPass)
    (fun t ht => elemsOk_mapAttrs (fun nm a hfx => by
      unfold styleFixP at hfx ⊢
      simp only [beq_iff_eq] at hfx ⊢
      exact styleFix_filter (fun pr hpr => by
        have h1 : pr.1 = "style" := by simpa using hpr
        simp [h1]) hfx) ht)
  apply condStep (P := fun t => elemsOk styleFixP t = true)
    (f := removeClassPass)
    (fun t ht => elemsOk_mapAttrs (fun nm a hfx => by
      unfold styleFixP at hfx ⊢
      simp only [beq_iff_eq] at hfx ⊢
      exact styleFix_filter (fun pr hpr => by
        have h1 : pr.1 = "style" := by simpa using hpr
        simp [h1]) hfx) ht)
  apply condStep (P := fun t => elemsOk styleFixP t = true)
    (f := strip_disallowed_attributes)
    (fun t ht => elemsOk_mapAttrs (fun nm a hfx => by
      unfold styleFixP at hfx ⊢
      simp only [beq_iff_eq] at hfx ⊢
      exact styleFix_filter (fun pr hpr => by
        unfold moodlePairOk
        simp [hpr]) hfx) ht)
  exact mapAttrs_estab (fun nm a => by
    unfold styleFixP
    simp [keepOnlyTextAlignAttr_idem]) _

/-- With strip-all style mode, no `style` attribute survives. -/

theorem clean_noStyle (opts : CleanOptions) (ns : NodeList)
    (h : opts.keep_only_text_align_style = false) :
    elemsOk noStyleP (clean_html opts ns) = true := by
  simp only [clean_html, h]
  apply condStep (P := fun t => elemsOk noStyleP t = true)
    (f := remove_empty_tags) (fun t ht => elemsOk_remove_empty_tags ht)
  apply condStep (P := fun t => elemsOk noStyleP t = true)
    (f := unwrap_spans) (fun t ht => elemsOk_unwrap_spans ht)
  apply elemsOk_convert_b_i (p := noStyleP) (fun nm a h => h)
  apply condStep (P := fun t => elemsOk noStyleP t = true)
    (f := removeIdPass)
    (fun t ht => elemsOk_mapAttrs (fun nm a hx => by
      unfold noStyleP at hx ⊢
      simp only [Bool.not_eq_true'] at hx ⊢
      exact hasAttr_filter_false hx) ht)
  apply condStep (P := fun t => elemsOk noStyleP t = true)
    (f := removeClassPass)
    (fun t ht => elemsOk_mapAttrs (fun nm a hx => by
      unfold noStyleP at hx ⊢
      simp only [Bool.not_eq_true'] at hx ⊢
      exact hasAttr_filter_false hx) ht)
  apply condStep (P := fun t => elemsOk noStyleP t = true)
    (f := strip_disallowed_attributes)
    (fun t ht => elemsOk_mapAttrs (fun nm a hx => by
      unfold noStyleP at hx ⊢
      simp only [Bool.not_eq_true'] at hx ⊢
      exact hasAttr_filter_false hx) ht)
  exact mapAttrs_estab (fun nm a => by
    unfold noStyleP
    simp [hasAttr_delAttr]) _

/-- After the style pass (either mode), no element exposes a usable
`font-size` any more. -/

theorem clean_noFs (opts : CleanOptions) (ns : NodeList) :
    elemsOk noFsP (clean_html opts ns) = true := by
  simp only [clean_html]
  apply condStep (P := fun t => elemsOk noFsP t = true)
    (f := remove_empty_tags) (fun t ht => elemsOk_remove_empty_tags ht)
  apply condStep (P := fun t => elemsOk noFsP t = true)
    (f := unwrap_spans) (fun t ht => elemsOk_unwrap_spans ht)
  apply elemsOk_convert_b_i (p := noFsP) (fun nm a h => h)
  apply condStep (P := fun t => elemsOk noFsP t = true)
    (f := removeIdPass)
    (fun t ht => elemsOk_mapAttrs (fun nm a hx => by
      unfold noFsP at hx ⊢
      exact noFs_filter (fun pr hpr => by
        have h1 : pr.1 = "style" := by simpa using hpr
        simp [h1]) hx) ht)
  apply condStep (P := fun t => elemsOk noFsP t = true)
    (f := removeClassPass)
    (fun t ht => elemsOk_mapAttrs (fun nm a hx => by
      unfold noFsP at hx ⊢
      exact noFs_filter (fun pr hpr => by
        have h1 : pr.1 = "style" := by simpa using hpr
        simp [h1]) hx) ht)
  apply condStep (P := fun t => elemsOk noFsP t = true)
    (f := strip_disallowed_attributes)
    (fun t ht => elemsOk_mapAttrs (fun nm a hx => by
      unfold noFsP at hx ⊢
      exact noFs_filter (fun pr hpr => by
        unfold moodlePairOk
        simp [hpr]) hx) ht)
  apply condEstab2 (P := fun t => elemsOk noFsP t = true)
    (f := keep_only_text_align_style) (g := remove_all_styles)
    (fun t => mapAttrs_estab (fun nm a => by
      unfold noFsP
      exact styleFix_noFs (keepOnlyTextAlignAttr_idem a)) t)
    (fun t => mapAttrs_estab (fun nm a => by
      unfold noFsP
      exact noFs_of_noStyle (hasAttr_delAttr a "style")) t)

/-- With attribute-allowlist enforcement on, every attribute of every
output element is `style` or allowlisted for its tag. -/

theorem clean_attrsOk (opts : CleanOptions) (ns : NodeList)
    (h : opts.keep_only_moodle_safe_attributes = true) :
    elemsOk attrsOkP (clean_html opts ns) = true := by
  simp only [clean_html, h, if_pos]
  apply condStep (P := fun t => elemsOk attrsOkP t = true)
    (f := remove_empty_tags) (fun t ht => elemsOk_remove_empty_tags ht)
  apply condStep (P := fun t => elemsOk attrsOkP t = true)
    (f := unwrap_spans) (fun t ht => elemsOk_unwrap_spans ht)
  apply elemsOk_convert_b_i attrsOkP_biRename
  apply condStep (P := fun t => elemsOk attrsOkP t = true)
    (f := removeIdPass)
    (fun t ht => elemsOk_mapAttrs (fun nm a hx => allFilter hx) ht)
  apply condStep (P := fun t => elemsOk attrsOkP t = true)
    (f := removeClassPass)
    (fun t ht => elemsOk_mapAttrs (fun nm a hx => allFilter hx) ht)
  exact mapAttrs_estab (fun nm a => allFilterSelf a) _

/-- With class removal on, no `class` attribute survives. -/

theorem clean_noClass (opts : CleanOptions) (ns : NodeList)
    (h : opts.remove_classes = true) :
    elemsOk noClassP (clean_html opts ns) = true := by
  simp only [clean_html, h, if_pos]
  apply condStep (P := fun t => elemsOk noClassP t = true)
    (f := remove_empty_tags) (fun t ht => elemsOk_remove_empty_tags ht)
  apply condStep (P := fun t => elemsOk noClassP t = true)
    (f := unwrap_spans) (fun t ht => elemsOk_unwrap_spans ht)
  apply elemsOk_convert_b_i (p := noClassP) (fun nm a h => h)
  apply condStep (P := fun t => elemsOk noClassP t = true)
    (f := removeIdPass)
    (fun t ht => elemsOk_mapAttrs (fun nm a hx => by
      unfold noClassP at hx ⊢
      simp only [Bool.not_eq_true'] at hx ⊢
      exact hasAttr_filter_false hx) ht)
  exact mapAttrs_estab (fun nm a => by
    unfold noClassP
    simp [hasAttr_delAttr]) _

/-- With id removal on, no `id` attribute survives. -/

theorem clean_noId (opts : CleanOptions) (ns : NodeList)
    (h : opts.remove_ids = true) :
    elemsOk noIdP (clean_html opts ns) = true := by
  simp only [clean_html, h, if_pos]
  apply condStep (P := fun t => elemsOk noIdP t = true)
    (f := remove_empty_tags) (fun t ht => elemsOk_remove_empty_tags ht)
  apply condStep (P := fun t => elemsOk noIdP t = true)
    (f := unwrap_spans) (fun t ht => elemsOk_unwrap_spans ht)
  apply elemsOk_convert_b_i (p := noIdP) (fun nm a h => h)
  exact mapAttrs_estab (fun nm a => by
    unfold noIdP
    simp [hasAttr_delAttr]) _

/-- With empty-node pruning on, the output is a fixed point of the scan. -/

theorem clean_pruneFix (opts : CleanOptions) (ns : NodeList)
    (h : opts.remove_empty_tags = true) :
    pruneScan (clean_html opts ns) = clean_html opts ns := by
  simp only [clean_html, h, if_pos]
  exact remove_empty_tags_fix _

/-! ## Idempotence of the pipeline -/

/-- Every pass is the identity on a tree that the pipeline (with the same
options) has already produced, so a second run changes nothing. -/

theorem clean_idem (opts : CleanOptions) (ns : NodeList) :
    clean_html opts (clean_html opts ns) = clean_html opts ns := by
  set S := clean_html opts ns with hS
  have hTag : elemsOk tagOkP S = true := clean_tagOk opts ns
  have hBI : elemsOk noBIP S = true := clean_noBI opts ns
  have hFs : elemsOk noFsP S = true := clean_noFs opts ns
  have e1 : (if opts.remove_comments = true then removeCommentsPass S else S) = S := by
    cases hc : opts.remove_comments with
    | false => simp
    | true =>
        rw [if_pos rfl]
        exact removeComments_id (clean_noComments opts ns hc)
  have e2 : (if opts.remove_office_tags = true then remove_office_specific_content S else S)
      = S := by
    cases hc : opts.remove_office_tags with
    | false => simp
    | true =>
        rw [if_pos rfl]
        unfold remove_office_specific_content
        rw [removeOfficeElems_id hTag]
        exact mapAttrs_id (p := officeAttrsOkP)
          (fun nm a h => officeAttrFilter_id h) (clean_officeAttrs opts ns hc)
  have e3 : strip_disallowed_tags S = S := strip_id hTag
  have e4 : (if opts.infer_headings_from_font_size = true
      then infer_headings_from_styles false S else S) = S := by
    cases hc : opts.infer_headings_from_font_size with
    | false => simp
    | true =>
        rw [if_pos rfl]
        exact infer_id hFs false
  have e5 : (if opts.keep_only_text_align_style = true
      then keep_only_text_align_style S else remove_all_styles S) = S := by
    cases hc : opts.keep_only_text_align_style with
    | false =>
        rw [if_neg (by simp)]
        unfold remove_all_styles
        exact mapAttrs_id (p := noStyleP)
          (fun nm a h => delAttr_id (by
            unfold noStyleP at h
            simpa using h))
          (clean_noStyle opts ns hc)
    | true =>
        rw [if_pos rfl]
        unfold keep_only_text_align_style
        exact mapAttrs_id (p := styleFixP)
          (fun nm a h => by
            unfold styleFixP at h
            simpa using h)
          (clean_styleFix opts ns hc)
  have e6 : (if opts.keep_only_moodle_safe_attributes = true
      then strip_disallowed_attributes S else S) = S := by
    cases hc : opts.keep_only_moodle_safe_attributes with
    | false => simp
    | true =>
        rw [if_pos rfl]
        unfold strip_disallowed_attributes
        exact mapAttrs_id (p := attrsOkP)
          (fun nm a h => moodleAttrFilter_id h) (clean_attrsOk opts ns hc)
  have e7 : (if opts.remove_classes = true then removeClassPass S else S) = S := by
    cases hc : opts.remove_classes with
    | false => simp
    | true =>
        rw [if_pos rfl]
        unfold removeClassPass
        exact mapAttrs_id (p := noClassP)
          (fun nm a h => delAttr_id (by
            unfold noClassP at h
            simpa using h))
          (clean_noClass opts ns hc)
  have e8 : (if opts.remove_ids = true then removeIdPass S else S) = S := by
    cases hc : opts.remove_ids with
    | false => simp
    | true =>
        rw [if_pos rfl]
        unfold removeIdPass
        exact mapAttrs_id (p := noIdP)
          (fun nm a h => delAttr_id (by
            unfold noIdP at h
            simpa using h))
          (clean_noId opts ns hc)
  have e9 : convert_b_i_to_strong_em S = S := convert_b_i_id hBI
  have e10 : (if opts.unwrap_spans = true then unwrap_spans S else S) = S := by
    cases hc : opts.unwrap_spans with
    | false => simp
    | true =>
        rw [if_pos rfl]
        exact unwrap_spans_id (clean_noSpan opts ns hc)
  have e11 : (if opts.remove_empty_tags = true then remove_empty_tags S else S) = S := by
    cases hc : opts.remove_empty_tags with
    | false => simp
    | true =>
        rw [if_pos rfl]
        exact remove_empty_tags_id (clean_pruneFix opts ns hc)
  show clean_html opts S = S
  simp only [clean_html]
  rw [e1, e2, e3, e4, e5, e6, e7, e8, e9, e10, e11]

/-! ## Text preservation by the unwrapping pass -/

theorem rawText_append (xs ys : NodeList) :
    rawText (xs.append ys) = rawText xs ++ rawText ys := by
  induction xs using NodeList.myrec with
  | hnil => simp [NodeList.append, rawText]
  | helem nm a cs ns ih1 ih2 =>
      simp [NodeList.append, rawText, ih2, String.append_assoc]
  | htext s ns ih => simp [NodeList.append, rawText, ih, String.append_assoc]
  | hcomm s ns ih => simp [NodeList.append, rawText, ih]

/-- Unwrapping disallowed tags preserves the concatenated text content
exactly. -/

theorem rawText_strip (ns : NodeList) :
    rawText (strip_disallowed_tags ns) = rawText ns := by
  induction ns using NodeList.myrec with
  | hnil => rfl
  | helem nm a cs ns ih1 ih2 =>
      by_cases hal : nm ∈ ALLOWED_TAGS
      · simp [strip_disallowed_tags, hal, rawText, ih1, ih2]
      · simp only [strip_disallowed_tags, hal, if_false]
        rw [rawText_append, ih1, ih2]
        simp [rawText]
  | htext s ns ih => simp [strip_disallowed_tags, rawText, ih]
  | hcomm s ns ih => simp [strip_disallowed_tags, rawText, ih]

theorem childrenOnlyBrWs_comment_false {s : String} (hns : pyStrip s ≠ "")
    (xs ys : NodeList) :
    childrenOnlyBrWs (xs.append (.cons (.comment s) ys)) = false := by
  induction xs using NodeList.myrec with
  | hnil =>
      simp only [NodeList.append, childrenOnlyBrWs]
      simp [hns]
  | helem nm a cs ns ih1 ih2 =>
      simp [NodeList.append, childrenOnlyBrWs, ih2]
  | htext t ns ih =>
      simp [NodeList.append, childrenOnlyBrWs, ih]
  | hcomm t ns ih =>
      simp [NodeList.append, childrenOnlyBrWs, ih]

/-! ## The claims -/

/-- C1: For every raw HTML input (modelled as the parsed tree) and every
options record, every element surviving in the output of `clean_html`
has a tag name in the allowed-tag set; and the disallowed-tag unwrapping
pass loses no content: the concatenated text content of its output
equals that of its input exactly. -/

theorem claim_C1_tag_allowlist_closure (options : CleanOptions) (ns : NodeList) :
    elemsOk tagOkP (clean_html options ns) = true ∧
    rawText (strip_disallowed_tags ns) = rawText ns :=
  ⟨clean_tagOk options ns, rawText_strip ns⟩

/-- C2: With attribute-allowlist enforcement enabled, every attribute on
every output element is `style` (exempt) or belongs to the global ∪
per-tag allowlist; and when alignment-preserving style mode is also
active, every surviving `style` value is exactly one `text-align`
declaration whose value is `left`, `right`, `center` or `justify`. -/

theorem claim_C2_attr_allowlist_closure (options : CleanOptions) (ns : NodeList)
    (h : options.keep_only_moodle_safe_attributes = true) :
    elemsOk attrsOkP (clean_html options ns) = true ∧
    (options.keep_only_text_align_style = true →
      elemsOk canonStyleP (clean_html options ns) = true) :=
  ⟨clean_attrsOk options ns h,
   fun h5 => elemsOk_mono
     (fun nm a hp => styleFix_canon (by
        simp only [styleFixP, beq_iff_eq] at hp
        exact hp))
     _ (clean_styleFix options ns h5)⟩

theorem claim_C2_witness :
    defaultOptions.keep_only_moodle_safe_attributes = true ∧
    elemsOk attrsOkP (clean_html defaultOptions exC2) = true ∧
    (defaultOptions.keep_only_text_align_style = true →
      elemsOk canonStyleP (clean_html defaultOptions exC2) = true) :=
  ⟨by decide, (claim_C2_attr_allowlist_closure defaultOptions exC2 (by decide)).1,
   (claim_C2_attr_allowlist_closure defaultOptions exC2 (by decide)).2⟩

/-- C3: Heading inference renames a short non-empty paragraph styled at
`24px` (= 18pt) to `h3` (not `h2`), one at `30px` (= 22.5pt) to `h2`,
and leaves one at `10px` (= 7.5pt) unchanged. -/

theorem claim_C3_heading_inference :
    infer_headings_from_styles false exC3a
      = .cons (.element "h3" [("style", "font-size: 24px")]
          (.cons (.text "Heading text") .nil)) .nil ∧
    infer_headings_from_styles false exC3b
      = .cons (.element "h2" [("style", "font-size: 30px")]
          (.cons (.text "Heading text") .nil)) .nil ∧
    infer_headings_from_styles false exC3c = exC3c := by
  refine ⟨?_, ?_, ?_⟩ <;> decide

/-- C4: The pipeline is idempotent at the tree level: applying
`clean_html` to its own output with the same options returns the output
unchanged, for every input tree and every options record. -/

theorem claim_C4_idempotence (options : CleanOptions) (ns : NodeList) :
    clean_html options (clean_html options ns) = clean_html options ns :=
  clean_idem options ns

/-- C5: With default options `<div><p><br></p></div>` is fully removed
by empty-node pruning while `<p>Text<br></p>` survives intact; and a
void-tag element is never classified as effectively empty, regardless of
its children. -/

theorem claim_C5_empty_pruning :
    clean_html defaultOptions exC5a = .nil ∧
    clean_html defaultOptions exC5b = exC5b ∧
    (∀ (nm : String) (cs : NodeList), nm ∈ VOID_TAGS →
        tag_is_effectively_empty nm cs = false) := by
  refine ⟨by decide, by decide, ?_⟩
  intro nm cs h
  unfold tag_is_effectively_empty
  rw [if_pos h]

theorem claim_C5_witness :
    "br" ∈ VOID_TAGS ∧
    tag_is_effectively_empty "br" (.cons (.text "not empty") .nil) = false :=
  ⟨by decide,
   claim_C5_empty_pruning.2.2 "br" (.cons (.text "not empty") .nil) (by decide)⟩

/-- C6: The empty-node pruning loop terminates: a full scan either
changes nothing (and the loop stops) or strictly decreases the number of
elements, so `countElems ns + 1` scans always reach a fixed point — the
scan of `remove_empty_tags ns` removes nothing. -/

theorem claim_C6_prune_terminates (ns : NodeList) :
    pruneScan (remove_empty_tags ns) = remove_empty_tags ns ∧
    (pruneScan ns = ns ∨ countElems (pruneScan ns) < countElems ns) :=
  ⟨remove_empty_tags_fix ns, pruneScan_progress ns⟩

/-- C8 (counterexample): the claim says a styling-wrapper appearing
later among the children is not consulted, but on
`<p><b>x</b><span style="font-size: 24px">y</span></p>` (whose first
child is not a span) the code does consult the later span and returns
18pt, while the claim's reading returns no value. -/

theorem claim_C8_counterexample :
    candidate_font_size_spec [] exC8 = none ∧
    candidate_font_size_pt [] exC8 = some ⟨72, 4⟩ := by
  exact ⟨by decide, by decide⟩

/-- C8 (amended): during heading inference the effective font size comes
from the element's own style; only if that yields no size is the style
of the first `span` among the direct children consulted — regardless of
that span's position among the children. -/

theorem claim_C8_amended (a : List (String × String)) (cs : NodeList) :
    (∀ fs, font_size_to_pt (styleGet (parse_style (attrGet a "style")) "font-size")
        = some fs → candidate_font_size_pt a cs = some fs) ∧
    (font_size_to_pt (styleGet (parse_style (attrGet a "style")) "font-size") = none →
      candidate_font_size_pt a cs =
        (match firstSpanChild cs with
         | some sa =>
             font_size_to_pt (styleGet (parse_style (attrGet sa "style")) "font-size")
         | none => none)) := by
  constructor
  · intro fs hfs
    unfold candidate_font_size_pt
    rw [hfs]
  · intro hn
    unfold candidate_font_size_pt
    rw [hn]

theorem claim_C8_amended_witness :
    font_size_to_pt (styleGet (parse_style
        (attrGet [(("style" : String), ("font-size: 10pt" : String))] "style")) "font-size")
      = some ⟨10, 1⟩ ∧
    candidate_font_size_pt [("style", "font-size: 10pt")] exC8 = some ⟨10, 1⟩ :=
  ⟨by decide,
   (claim_C8_amended [("style", "font-size: 10pt")] exC8).1 ⟨10, 1⟩ (by decide)⟩

/-- C9: For every input and every options record the pipeline renames
every `b` to `strong` and every `i` to `em` unconditionally — no option
flag gates this pass — so no `b` or `i` element survives in the
output. -/

theorem claim_C9_presentational_normalization (options : CleanOptions)
    (ns : NodeList) : elemsOk noBIP (clean_html options ns) = true :=
  clean_noBI options ns

/-- C10: An element among whose children is a comment with
non-whitespace text is never classified as effectively empty; with
comment removal disabled, `<p><!-- note --></p>` survives the whole
pipeline unchanged. -/

theorem claim_C10_comment_blocks_pruning :
    (∀ (nm : String) (xs ys : NodeList) (s : String), pyStrip s ≠ "" →
        tag_is_effectively_empty nm (xs.append (.cons (.comment s) ys)) = false) ∧
    clean_html { defaultOptions with remove_comments := false } exC10 = exC10 := by
  constructor
  · intro nm xs ys s hns
    unfold tag_is_effectively_empty
    by_cases hv : nm ∈ VOID_TAGS
    · rw [if_pos hv]
    · rw [if_neg hv]
      by_cases ht : textStrip (xs.append (.cons (.comment s) ys)) ≠ ""
      · rw [if_pos ht]
      · rw [if_neg ht]
        exact childrenOnlyBrWs_comment_false hns xs ys
  · decide

theorem claim_C10_witness :
    pyStrip " note " ≠ "" ∧
    tag_is_effectively_empty "p" (NodeList.nil.append
      (.cons (.comment " note ") .nil)) = false :=
  ⟨by decide,
   claim_C10_comment_blocks_pruning.1 "p" .nil .nil " note " (by decide)⟩

theorem ws_not_digit {c : Char} (h : pyIsSpace c = true) : c.isDigit = false := by
  unfold pyIsSpace at h
  simp only [Bool.or_eq_true, decide_eq_true_eq] at h
  rcases h with ((((h | h) | h) | h) | h) | h <;> subst h <;> decide

theorem ws_ne_dot {c : Char} (h : pyIsSpace c = true) : ¬(c = '.') := by
  unfold pyIsSpace at h
  simp only [Bool.or_eq_true, decide_eq_true_eq] at h
  rcases h with ((((h | h) | h) | h) | h) | h <;> subst h <;> decide

theorem digit_not_ws {c : Char} (h : c.isDigit = true) : pyIsSpace c = false := by
  cases hv : pyIsSpace c with
  | false => rfl
  | true => rw [ws_not_digit hv] at h; cases h

theorem toLower_ws {c : Char} (h : pyIsSpace c = true) : c.toLower = c := by
  unfold pyIsSpace at h
  simp only [Bool.or_eq_true, decide_eq_true_eq] at h
  rcases h with ((((h | h) | h) | h) | h) | h <;> subst h <;> decide

theorem toLower_digit {c : Char} (h : c.isDigit = true) : c.toLower = c := by
  simp only [Char.isDigit, Bool.and_eq_true, decide_eq_true_eq] at h
  unfold Char.toLower
  rw [if_neg]
  have hn : c.toNat ≤ 57 := h.2
  omega

theorem dropWhile_ws_append {w : List Char} (hw : wsOnly w) (l : List Char) :
    (w ++ l).dropWhile pyIsSpace = l.dropWhile pyIsSpace := by
  induction w with
  | nil => rfl
  | cons c cs ih =>
      have hc : pyIsSpace c = true := hw c (by simp)
      simp only [List.cons_append, List.dropWhile_cons, hc, if_true]
      exact ih (fun x hx => hw x (by simp [hx]))

theorem dropWhile_ws_cons_neg {c : Char} {l : List Char}
    (hc : pyIsSpace c = false) : (c :: l).dropWhile pyIsSpace = c :: l := by
  simp [List.dropWhile_cons, hc]

theorem takeWhile_digits_append {d : List Char} {c : Char} {r : List Char}
    (hd : digitsOnly d) (hc : c.isDigit = false) :
    (d ++ c :: r).takeWhile Char.isDigit = d ∧
    (d ++ c :: r).dropWhile Char.isDigit = c :: r := by
  induction d with
  | nil => simp [List.takeWhile_cons, List.dropWhile_cons, hc]
  | cons x xs ih =>
      have hx : x.isDigit = true := hd x (by simp)
      have ihs := ih (fun y hy => hd y (by simp [hy]))
      simp [List.takeWhile_cons, List.dropWhile_cons, hx, ihs.1, ihs.2]

theorem span_digits {d : List Char} {c : Char} {r : List Char}
    (hd : digitsOnly d) (hc : c.isDigit = false) :
    (d ++ c :: r).span Char.isDigit = (d, c :: r) := by
  rw [List.span_eq_take_drop, (takeWhile_digits_append hd hc).1,
    (takeWhile_digits_append hd hc).2]

theorem wsOnly_reverse {w : List Char} (hw : wsOnly w) : wsOnly w.reverse :=
  fun c hc => hw c (List.mem_reverse.mp hc)

theorem stripChars_pad {w1 w3 : List Char} (c e : Char) (mid : List Char)
    (h1 : wsOnly w1) (h3 : wsOnly w3)
    (hc : pyIsSpace c = false) (he : pyIsSpace e = false) :
    stripChars (w1 ++ (c :: (mid ++ [e])) ++ w3) = c :: (mid ++ [e]) := by
  unfold stripChars
  rw [List.append_assoc, dropWhile_ws_append h1, List.cons_append,
    dropWhile_ws_cons_neg hc]
  simp only [List.reverse_cons, List.reverse_append, List.reverse_nil,
    List.nil_append, List.append_assoc, List.cons_append, List.singleton_append]
  rw [dropWhile_ws_append (wsOnly_reverse h3), dropWhile_ws_cons_neg he]
  simp [List.reverse_cons, List.reverse_append]

theorem decimalChars_shape {d1 d2 : List Char} (hd1 : digitsOnly d1)
    (hne : d2 = [] → d1 ≠ []) :
    ∃ c dt, decimalChars d1 d2 = c :: dt ∧ pyIsSpace c = false := by
  by_cases h : d2 = []
  · subst h
    cases hd : d1 with
    | nil => exact absurd hd (hne rfl)
    | cons c dt =>
        refine ⟨c, dt, by simp [decimalChars, hd], ?_⟩
        exact digit_not_ws (hd1 c (by rw [hd]; simp))
  · cases hd : d1 with
    | nil =>
        refine ⟨'.', d2, ?_, by decide⟩
        simp [decimalChars, h, hd]
    | cons c dt =>
        refine ⟨c, dt ++ '.' :: d2, ?_, ?_⟩
        · simp [decimalChars, h, hd]
        · exact digit_not_ws (hd1 c (by rw [hd]; simp))

theorem toLower_decimalChars {d1 d2 : List Char} (hd1 : digitsOnly d1)
    (hd2 : digitsOnly d2) :
    (decimalChars d1 d2).map Char.toLower = decimalChars d1 d2 := by
  apply mapSelfOfAll
  intro ch hch
  unfold decimalChars at hch
  by_cases h : d2 = []
  · rw [if_pos h] at hch
    exact toLower_digit (hd1 ch hch)
  · rw [if_neg h] at hch
    rcases List.mem_append.mp hch with hm | hm
    · exact toLower_digit (hd1 ch hm)
    · rcases List.mem_cons.mp hm with rfl | hm
      · decide
      · exact toLower_digit (hd2 ch hm)

theorem parseFsNumber_complete {d1 d2 : List Char} {c : Char} {r : List Char}
    (hd1 : digitsOnly d1) (hd2 : digitsOnly d2) (hne : d2 = [] → d1 ≠ [])
    (hcd : c.isDigit = false) (hcdot : ¬(c = '.')) :
    parseFsNumber (decimalChars d1 d2 ++ (c :: r))
      = some (decimalVal d1 d2, c :: r) := by
  by_cases h : d2 = []
  · subst h
    have hdec : decimalChars d1 [] = d1 := by simp [decimalChars]
    rw [hdec]
    unfold parseFsNumber
    simp only [span_digits hd1 hcd]
    rw [if_neg hcdot, if_neg (hne rfl)]
    simp [decimalVal]
  · have hdec : decimalChars d1 d2 = d1 ++ '.' :: d2 := by simp [decimalChars, h]
    rw [hdec]
    have hassoc : (d1 ++ '.' :: d2) ++ (c :: r) = d1 ++ '.' :: (d2 ++ c :: r) := by
      simp
    rw [hassoc]
    unfold parseFsNumber
    simp only [span_digits hd1 (by decide : ('.' : Char).isDigit = false)]
    simp only [if_true]
    simp only [span_digits hd2 hcd]
    rw [if_neg h]
    simp [decimalVal]

theorem mk_data (l : List Char) : (String.mk l).data = l := rfl

theorem font_size_eval_num {s : String} {num : FsVal} {rest : List Char}
    (hne : ¬(s = ""))
    (hn : parseFsNumber (((pyLower (pyStrip s)).data).dropWhile pyIsSpace)
        = some (num, rest)) :
    font_size_to_pt s =
      match parseFsUnit (rest.dropWhile pyIsSpace) with
      | none => none
      | some (isPx, rest2) =>
          if rest2.dropWhile pyIsSpace = [] then
            some (if isPx then num.pxToPt else num)
          else none := by
  unfold font_size_to_pt
  rw [if_neg hne, hn]

theorem font_size_eval_unit {s : String} {num : FsVal} {rest : List Char}
    {isPx : Bool} {rest2 : List Char} (hne : ¬(s = ""))
    (hn : parseFsNumber (((pyLower (pyStrip s)).data).dropWhile pyIsSpace)
        = some (num, rest))
    (hu : parseFsUnit (rest.dropWhile pyIsSpace) = some (isPx, rest2)) :
    font_size_to_pt s =
      if rest2.dropWhile pyIsSpace = [] then
        some (if isPx then num.pxToPt else num)
      else none := by
  rw [font_size_eval_num hne hn, hu]

/-- Completeness half of the C7 characterization: any whitespace-padded
decimal literal followed by a `px`/`pt` unit in any letter case converts
to exactly the literal's value (times 3/4 for `px`). -/

theorem font_size_complete (w1 w2 w3 d1 d2 : List Char) (u1 u2 : Char)
    (isPx : Bool)
    (h1 : wsOnly w1) (h2 : wsOnly w2) (h3 : wsOnly w3)
    (hd1 : digitsOnly d1) (hd2 : digitsOnly d2) (hne : d2 = [] → d1 ≠ [])
    (hu1 : u1.toLower = 'p') (hu2 : u2.toLower = (if isPx then 'x' else 't')) :
    font_size_to_pt (String.mk
        (w1 ++ (decimalChars d1 d2 ++ w2 ++ [u1, u2]) ++ w3))
      = some (if isPx then (decimalVal d1 d2).pxToPt else decimalVal d1 d2) := by
  obtain ⟨c, dt, hdec, hc⟩ := decimalChars_shape hd1 hne
  have he : pyIsSpace u2 = false := by
    cases hv : pyIsSpace u2 with
    | false => rfl
    | true =>
        exfalso
        have ht := toLower_ws hv
        rw [ht] at hu2
        rw [hu2] at hv
        cases isPx <;> exact absurd hv (by decide)
  have hK : decimalChars d1 d2 ++ w2 ++ [u1, u2]
      = c :: ((dt ++ w2 ++ [u1]) ++ [u2]) := by
    rw [hdec]
    simp [List.cons_append, List.append_assoc]
  have hvalne : ¬(String.mk
      (w1 ++ (decimalChars d1 d2 ++ w2 ++ [u1, u2]) ++ w3) = "") := by
    intro hcontra
    have hdata : w1 ++ (decimalChars d1 d2 ++ w2 ++ [u1, u2]) ++ w3 = [] := by
      have h0 := congrArg String.data hcontra
      simp only [mk_data] at h0
      exact h0
    rw [hK] at hdata
    simp at hdata
  have hstrip : pyStrip (String.mk
      (w1 ++ (decimalChars d1 d2 ++ w2 ++ [u1, u2]) ++ w3))
      = String.mk (decimalChars d1 d2 ++ w2 ++ [u1, u2]) := by
    unfold pyStrip
    rw [mk_data, hK, stripChars_pad c u2 (dt ++ w2 ++ [u1]) h1 h3 hc he]
  have hlower : pyLower (String.mk (decimalChars d1 d2 ++ w2 ++ [u1, u2]))
      = String.mk (decimalChars d1 d2 ++ w2
          ++ ['p', if isPx then 'x' else 't']) := by
    unfold pyLower
    rw [mk_data]
    congr 1
    simp only [List.map_append, List.map_cons, List.map_nil]
    rw [toLower_decimalChars hd1 hd2,
      mapSelfOfAll (fun x hx => toLower_ws (h2 x hx)), hu1, hu2]
  have hK2 : decimalChars d1 d2 ++ w2 ++ ['p', if isPx then 'x' else 't']
      = c :: (dt ++ (w2 ++ ['p', if isPx then 'x' else 't'])) := by
    rw [hdec]
    simp [List.cons_append, List.append_assoc]
  have hdrop : ((pyLower (pyStrip (String.mk
        (w1 ++ (decimalChars d1 d2 ++ w2 ++ [u1, u2]) ++ w3)))).data).dropWhile pyIsSpace
      = decimalChars d1 d2 ++ w2 ++ ['p', if isPx then 'x' else 't'] := by
    rw [hstrip, hlower, mk_data, hK2, dropWhile_ws_cons_neg hc]
  obtain ⟨c0, r0, hw, hc0d, hc0dot, hdw⟩ :
      ∃ c0 r0, w2 ++ ['p', if isPx then 'x' else 't'] = c0 :: r0 ∧
        c0.isDigit = false ∧ ¬(c0 = '.') ∧
        (c0 :: r0).dropWhile pyIsSpace = ['p', if isPx then 'x' else 't'] := by
    cases hw2 : w2 with
    | nil =>
        refine ⟨'p', [if isPx then 'x' else 't'], by simp, by decide, by decide, ?_⟩
        exact dropWhile_ws_cons_neg (by decide)
    | cons wc wrest =>
        have hwc : pyIsSpace wc = true := h2 wc (by rw [hw2]; simp)
        refine ⟨wc, wrest ++ ['p', if isPx then 'x' else 't'], by simp,
          ws_not_digit hwc, ws_ne_dot hwc, ?_⟩
        have hall : wsOnly (wc :: wrest) := by
          rw [← hw2]
          exact h2
        rw [show wc :: (wrest ++ ['p', if isPx then 'x' else 't'])
            = (wc :: wrest) ++ ['p', if isPx then 'x' else 't'] from by simp,
          dropWhile_ws_append hall]
        exact dropWhile_ws_cons_neg (by decide)
  have hn : parseFsNumber (List.dropWhile pyIsSpace
        (String.data (pyLower (pyStrip (String.mk
          (w1 ++ (decimalChars d1 d2 ++ w2 ++ [u1, u2]) ++ w3))))))
      = some (decimalVal d1 d2, c0 :: r0) := by
    rw [hdrop, List.append_assoc, hw]
    exact parseFsNumber_complete hd1 hd2 hne hc0d hc0dot
  have hu : parseFsUnit ((c0 :: r0).dropWhile pyIsSpace) = some (isPx, []) := by
    rw [hdw]
    cases isPx
    · decide
    · decide
  rw [font_size_eval_unit hvalne hn hu]
  rfl

theorem parseFsUnit_sound {l : List Char} {isPx : Bool} {r : List Char}
    (h : parseFsUnit l = some (isPx, r)) :
    l = (if isPx = true then ['p', 'x'] else ['p', 't']) ++ r := by
  match l with
  | [] => exact absurd h (by simp [parseFsUnit])
  | [c] => exact absurd h (by simp [parseFsUnit])
  | c1 :: c2 :: r2 =>
      simp only [parseFsUnit] at h
      by_cases h1 : c1 = 'p'
      · rw [if_pos h1] at h
        by_cases h2 : c2 = 'x'
        · rw [if_pos h2] at h
          injection h with h
          injection h with ha hb
          subst h1
          subst h2
          rw [← ha, ← hb]
          rfl
        · rw [if_neg h2] at h
          by_cases h3 : c2 = 't'
          · rw [if_pos h3] at h
            injection h with h
            injection h with ha hb
            subst h1
            subst h3
            rw [← ha, ← hb]
            rfl
          · rw [if_neg h3] at h
            cases h
      · rw [if_neg h1] at h
        cases h

theorem digitsOnly_nil : digitsOnly [] := by
  intro c hc
  cases hc

theorem parseFsNumber_sound {cs : List Char} {num : FsVal} {rest : List Char}
    (h : parseFsNumber cs = some (num, rest)) :
    ∃ d1 d2, cs = decimalChars d1 d2 ++ rest ∧ digitsOnly d1 ∧ digitsOnly d2 ∧
      (d2 = [] → d1 ≠ []) ∧ num = decimalVal d1 d2 := by
  unfold parseFsNumber at h
  simp only [List.span_eq_take_drop] at h
  have hd1 : digitsOnly (cs.takeWhile Char.isDigit) :=
    fun c hc => List.mem_takeWhile_imp hc
  have hcs : cs = cs.takeWhile Char.isDigit ++ cs.dropWhile Char.isDigit :=
    (List.takeWhile_append_dropWhile _ _).symm
  split at h
  · rename_i c r2 heq
    by_cases hcdot : c = '.'
    · rw [if_pos hcdot] at h
      have hd2 : digitsOnly (r2.takeWhile Char.isDigit) :=
        fun x hx => List.mem_takeWhile_imp hx
      by_cases hd2e : r2.takeWhile Char.isDigit = []
      · rw [if_pos hd2e] at h
        cases h
      · rw [if_neg hd2e] at h
        injection h with h
        injection h with ha hb
        refine ⟨cs.takeWhile Char.isDigit, r2.takeWhile Char.isDigit, ?_, hd1, hd2,
          fun h' => absurd h' hd2e, ?_⟩
        · rw [decimalChars, if_neg hd2e, ← hb]
          subst hcdot
          calc cs = cs.takeWhile Char.isDigit ++ cs.dropWhile Char.isDigit := hcs
            _ = cs.takeWhile Char.isDigit ++ '.' :: r2 := by rw [heq]
            _ = cs.takeWhile Char.isDigit
                ++ '.' :: (r2.takeWhile Char.isDigit ++ r2.dropWhile Char.isDigit) := by
                  rw [List.takeWhile_append_dropWhile]
            _ = (cs.takeWhile Char.isDigit ++ '.' :: r2.takeWhile Char.isDigit)
                ++ r2.dropWhile Char.isDigit := by simp
        · rw [← ha]
          rfl
    · rw [if_neg hcdot] at h
      by_cases hd1e : cs.takeWhile Char.isDigit = []
      · rw [if_pos hd1e] at h
        cases h
      · rw [if_neg hd1e] at h
        injection h with h
        injection h with ha hb
        refine ⟨cs.takeWhile Char.isDigit, [], ?_, hd1, digitsOnly_nil,
          fun _ => hd1e, ?_⟩
        · rw [decimalChars, if_pos rfl, ← hb]
          exact hcs
        · rw [← ha]
          simp [decimalVal]
  · rename_i heq
    by_cases hd1e : cs.takeWhile Char.isDigit = []
    · rw [if_pos hd1e] at h
      cases h
    · rw [if_neg hd1e] at h
      injection h with h
      injection h with ha hb
      refine ⟨cs.takeWhile Char.isDigit, [], ?_, hd1, digitsOnly_nil,
        fun _ => hd1e, ?_⟩
      · rw [decimalChars, if_pos rfl, ← hb]
        simpa [heq] using hcs
      · rw [← ha]
        simp [decimalVal]

theorem font_size_eval_num_none {s : String} (hne : ¬(s = ""))
    (hn : parseFsNumber (((pyLower (pyStrip s)).data).dropWhile pyIsSpace) = none) :
    font_size_to_pt s = none := by
  unfold font_size_to_pt
  rw [if_neg hne, hn]

theorem font_size_eval_unit_none {s : String} {num : FsVal} {rest : List Char}
    (hne : ¬(s = ""))
    (hn : parseFsNumber (((pyLower (pyStrip s)).data).dropWhile pyIsSpace)
        = some (num, rest))
    (hu : parseFsUnit (rest.dropWhile pyIsSpace) = none) :
    font_size_to_pt s = none := by
  rw [font_size_eval_num hne hn, hu]

/-- Soundness half of the C7 characterization: whenever the conversion
returns a value, the lowered-stripped input decomposes as whitespace,
a decimal literal, whitespace, a `px`/`pt` unit, and whitespace, and the
value is that literal's value (times 3/4 for `px`). -/

theorem font_size_sound {s : String} {f : FsVal}
    (h : font_size_to_pt s = some f) :
    ∃ (w1 d1 d2 : List Char) (isPx : Bool) (w2 w3 : List Char),
      (pyLower (pyStrip s)).data
        = w1 ++ decimalChars d1 d2 ++ w2
            ++ (if isPx = true then ['p', 'x'] else ['p', 't']) ++ w3 ∧
      wsOnly w1 ∧ digitsOnly d1 ∧ digitsOnly d2 ∧ (d2 = [] → d1 ≠ []) ∧
      wsOnly w2 ∧ wsOnly w3 ∧
      f = (if isPx = true then (decimalVal d1 d2).pxToPt else decimalVal d1 d2) := by
  by_cases hs : s = ""
  · rw [hs] at h
    unfold font_size_to_pt at h
    rw [if_pos rfl] at h
    cases h
  · rcases hpn : parseFsNumber (((pyLower (pyStrip s)).data).dropWhile pyIsSpace)
      with _ | ⟨num, rest⟩
    · rw [font_size_eval_num_none hs hpn] at h
      cases h
    · rcases hpu : parseFsUnit (rest.dropWhile pyIsSpace) with _ | ⟨isPx, rest2⟩
      · rw [font_size_eval_unit_none hs hpn hpu] at h
        cases h
      · rw [font_size_eval_unit hs hpn hpu] at h
        by_cases hdw : rest2.dropWhile pyIsSpace = []
        · rw [if_pos hdw] at h
          injection h with h
          obtain ⟨d1, d2, hdec, hd1, hd2, hne2, hnum⟩ := parseFsNumber_sound hpn
          have hunit := parseFsUnit_sound hpu
          have hw3 : wsOnly rest2 := List.dropWhile_eq_nil_iff.mp hdw
          have hw2 : wsOnly (rest.takeWhile pyIsSpace) :=
            fun c hc => List.mem_takeWhile_imp hc
          have hw1 : wsOnly (((pyLower (pyStrip s)).data).takeWhile pyIsSpace) :=
            fun c hc => List.mem_takeWhile_imp hc
          refine ⟨((pyLower (pyStrip s)).data).takeWhile pyIsSpace, d1, d2, isPx,
            rest.takeWhile pyIsSpace, rest2, ?_, hw1, hd1, hd2, hne2, hw2, hw3, ?_⟩
          · calc (pyLower (pyStrip s)).data
                = ((pyLower (pyStrip s)).data).takeWhile pyIsSpace
                  ++ ((pyLower (pyStrip s)).data).dropWhile pyIsSpace := by
                    rw [List.takeWhile_append_dropWhile]
              _ = ((pyLower (pyStrip s)).data).takeWhile pyIsSpace
                  ++ (decimalChars d1 d2 ++ rest) := by rw [hdec]
              _ = ((pyLower (pyStrip s)).data).takeWhile pyIsSpace
                  ++ (decimalChars d1 d2
                    ++ (rest.takeWhile pyIsSpace ++ rest.dropWhile pyIsSpace)) := by
                    rw [List.takeWhile_append_dropWhile]
              _ = ((pyLower (pyStrip s)).data).takeWhile pyIsSpace
                  ++ (decimalChars d1 d2
                    ++ (rest.takeWhile pyIsSpace
                      ++ ((if isPx = true then ['p', 'x'] else ['p', 't']) ++ rest2))) := by
                    rw [hunit]
              _ = _ := by simp [List.append_assoc]
          · rw [← h, hnum]
        · rw [if_neg hdw] at h
          cases h

theorem pxToPt_toRat (d1 d2 : List Char) :
    ((decimalVal d1 d2).pxToPt).toRat = (3 / 4 : Rat) * (decimalVal d1 d2).toRat := by
  simp only [FsVal.pxToPt, FsVal.toRat, decimalVal]
  push_cast
  rw [div_mul_div_comm]

/-- C7: the font-size conversion accepts exactly a decimal literal with
unit `px` or `pt` (whitespace-tolerant, case-insensitive), returning the
value unchanged for `pt` and ×0.75 (exactly ×3/4) for `px`; in every
other case it returns no value. -/

theorem claim_C7_font_size_to_pt :
    (∀ (w1 w2 w3 d1 d2 : List Char) (u1 u2 : Char) (isPx : Bool),
      wsOnly w1 → wsOnly w2 → wsOnly w3 → digitsOnly d1 → digitsOnly d2 →
      (d2 = [] → d1 ≠ []) → u1.toLower = 'p' →
      u2.toLower = (if isPx = true then 'x' else 't') →
      font_size_to_pt (String.mk
          (w1 ++ (decimalChars d1 d2 ++ w2 ++ [u1, u2]) ++ w3))
        = some (if isPx = true then (decimalVal d1 d2).pxToPt
                else decimalVal d1 d2)) ∧
    (∀ d1 d2 : List Char,
      ((decimalVal d1 d2).pxToPt).toRat = (3 / 4 : Rat) * (decimalVal d1 d2).toRat) ∧
    (∀ (s : String) (f : FsVal), font_size_to_pt s = some f →
      ∃ (w1 d1 d2 : List Char) (isPx : Bool) (w2 w3 : List Char),
        (pyLower (pyStrip s)).data
          = w1 ++ decimalChars d1 d2 ++ w2
              ++ (if isPx = true then ['p', 'x'] else ['p', 't']) ++ w3 ∧
        wsOnly w1 ∧ digitsOnly d1 ∧ digitsOnly d2 ∧ (d2 = [] → d1 ≠ []) ∧
        wsOnly w2 ∧ wsOnly w3 ∧
        f = (if isPx = true then (decimalVal d1 d2).pxToPt
             else decimalVal d1 d2)) :=
  ⟨fun w1 w2 w3 d1 d2 u1 u2 isPx h1 h2 h3 hd1 hd2 hne hu1 hu2 =>
     font_size_complete w1 w2 w3 d1 d2 u1 u2 isPx h1 h2 h3 hd1 hd2 hne hu1 hu2,
   pxToPt_toRat,
   fun _ _ h => font_size_sound h⟩

theorem claim_C7_witness :
    wsOnly [' '] ∧ digitsOnly ['2', '4'] ∧
    font_size_to_pt (String.mk
        ([' '] ++ (decimalChars ['2', '4'] [] ++ [' '] ++ ['P', 'X']) ++ []))
      = some (if (true : Bool) = true then (decimalVal ['2', '4'] []).pxToPt
              else decimalVal ['2', '4'] []) :=
  ⟨by decide, by decide,
   claim_C7_font_size_to_pt.1 [' '] [' '] [] ['2', '4'] [] 'P' 'X' true
     (by decide) (by decide) (by decide) (by decide) (by decide)
     (by decide) (by decide) (by decide)⟩
